import Mathlib

/-!
Verification development for the semantic analyzer of the Elm-interpreter
repository.  The Rust sources under `src/` are embedded shallowly: each Rust
function becomes a Lean function over an explicit AST model, `Result`/panics
become `Except`/`Option`, and the mutable environment stack becomes explicit
state passing.  Hash-map iteration order (unspecified in Rust) is fixed to
insertion (source) order; every property proved here is insensitive to that
choice.  Rust `Vec` fields in recursive positions are represented by
isomorphic inlined list types (`TyList`, `PatternList`, ...) so that
structural recursion and decidable equality are available.
-/

mutual
/-- The type-term AST.  Modelled from the spec (§3 "Type term"): `ast.rs` is
not among the provided sources; the variant set follows the spec exactly
(`Var`, `Tag`, `Fun` (here `arrow`), `Unit`, `Tuple`, `Record`, `RecExt`).
Recursive `Vec` positions are the inlined list types `TyList`/`TyFields`. -/
inductive Ty where
  | var (name : String)
  | tag (name : String) (args : TyList)
  | arrow (arg : Ty) (ret : Ty)
  | unit
  | tuple (elems : TyList)
  | record (fields : TyFields)
  | recExt (name : String) (fields : TyFields)
inductive TyList where
  | nil
  | cons (head : Ty) (tail : TyList)
inductive TyFields where
  | nil
  | cons (name : String) (ty : Ty) (tail : TyFields)
end

deriving instance DecidableEq for Ty
deriving instance DecidableEq for TyList
deriving instance DecidableEq for TyFields

def TyList.ofList : List Ty → TyList
  | [] => .nil
  | t :: ts => .cons t (TyList.ofList ts)

def TyList.toList : TyList → List Ty
  | .nil => []
  | .cons t ts => t :: ts.toList

def TyFields.toList : TyFields → List (String × Ty)
  | .nil => []
  | .cons n t ts => (n, t) :: ts.toList

/-- Literals.  Modelled from the spec (§3): the numeric value of a float is
never inspected by the analyzer, so its source text stands in for it. -/
inductive Literal where
  | int (v : Int)
  | float (text : String)
  | str (v : String)
  | char (v : Char)
  deriving DecidableEq

mutual
/-- Patterns.  Modelled from the spec (§3 "Pattern"). -/
inductive Pattern where
  | var (name : String)
  | wildcard
  | unit
  | literal (l : Literal)
  | tuple (items : PatternList)
  | list (items : PatternList)
  | cons (head : Pattern) (tail : Pattern)
  | record (fields : List String)
  | tagArgs (ctor : String) (args : PatternList)
  | alias (inner : Pattern) (name : String)
inductive PatternList where
  | nil
  | cons (head : Pattern) (tail : PatternList)
end

deriving instance DecidableEq for Pattern
deriving instance DecidableEq for PatternList

mutual
/-- Expressions, value definitions and let-declarations.  Modelled from the
spec (§3 "Expression", "Statement"): the variant set and the shape of
`Definition { name, patterns, expr, optional_signature }` follow §3. -/
inductive Expr where
  | literal (l : Literal)
  | ref (name : String)
  | qualifiedRef (path : List String) (name : String)
  | recordField (e : Expr) (field : String)
  | recordAccess (field : String)
  | recordUpdate (name : String) (fields : ExprFields)
  | ifExpr (cond thenE elseE : Expr)
  | caseExpr (scrut : Expr) (arms : CaseArms)
  | application (f a : Expr)
  | lambda (patterns : List Pattern) (body : Expr)
  | letExpr (decls : LetDeclList) (body : Expr)
  | opChain (exprs : ExprList) (ops : List String)
  | tupleExpr (items : ExprList)
  | listExpr (items : ExprList)
  | recordExpr (fields : ExprFields)
inductive ExprList where
  | nil
  | cons (head : Expr) (tail : ExprList)
inductive ExprFields where
  | nil
  | cons (name : String) (e : Expr) (tail : ExprFields)
inductive CaseArms where
  | nil
  | cons (pat : Pattern) (e : Expr) (tail : CaseArms)
inductive Definition where
  | mk (name : String) (patterns : List Pattern) (expr : Expr) (sig : Option Ty)
inductive LetDeclaration where
  | defDecl (d : Definition)
  | patDecl (p : Pattern) (e : Expr)
inductive LetDeclList where
  | nil
  | cons (head : LetDeclaration) (tail : LetDeclList)
end

deriving instance DecidableEq for Expr
deriving instance DecidableEq for Definition
deriving instance DecidableEq for LetDeclaration
deriving instance DecidableEq for LetDeclList

def Definition.name : Definition → String
  | .mk n _ _ _ => n

def Definition.patterns : Definition → List Pattern
  | .mk _ ps _ _ => ps

def Definition.expr : Definition → Expr
  | .mk _ _ e _ => e

/-- Top-level statements, after `ast::Statement` (modelled from the spec §3;
`ast.rs` is not among the provided sources). -/
inductive Statement where
  | alias (name : String) (typeVars : List String) (body : Ty)
  | adt (name : String) (typeVars : List String) (variants : List (String × List Ty))
  | port (name : String) (ty : Ty)
  | defStm (d : Definition)
  | infixStm (assoc : String) (prec : Int) (op : String) (underlying : String)
  deriving DecidableEq

/-- ADT descriptor variant, after `AdtVariant` in `module_analyser.rs`. -/
structure AdtVariant where
  name : String
  types : List Ty
  deriving DecidableEq

/-- Shared ADT descriptor, after `Adt` in `module_analyser.rs` (the `Arc`
shared-ownership wrapper has no observable content and is dropped). -/
structure Adt where
  name : String
  types : List String
  variants : List AdtVariant
  deriving DecidableEq

/-- Post-analysis declarations, after `loader::Declaration` as used by
`module_analyser.rs` (`Def` is `defn` because `def` is a Lean keyword). -/
inductive Declaration where
  | defn (name : String) (ty : Ty)
  | alias (name : String) (ty : Ty)
  | adt (name : String) (descriptor : Adt)
  deriving DecidableEq

mutual
/-- `TypeError`, after the constructors used in `module_analyser.rs` and the
spec's error taxonomy (§7); the error enum's own source file is not among
the provided sources.  `List([TypeError])` carries the inlined list type
`TypeErrorList`. -/
inductive TypeError where
  | unusedTypeVariables (vars : List String)
  | undeclaredTypeVariables (vars : List String)
  | cyclicStatementDependency (names : List String)
  | internalError
  | list (errors : TypeErrorList)
inductive TypeErrorList where
  | nil
  | cons (head : TypeError) (tail : TypeErrorList)
end

deriving instance DecidableEq for TypeError
deriving instance DecidableEq for TypeErrorList

def TypeErrorList.ofList : List TypeError → TypeErrorList
  | [] => .nil
  | e :: es => .cons e (TypeErrorList.ofList es)

/-- `RuntimeError`, restricted to the constructor `get_exposed_decls` in
`module_analyser.rs` produces. -/
inductive RuntimeError where
  | missingExposing (name : String) (decls : List Declaration)
  deriving DecidableEq

/-- Exposing items, after `ast::Exposing` (modelled from the spec §3;
`Type` is `typeExp` because `type` is a Lean keyword). -/
inductive AdtExposing where
  | all
  | variants (names : List String)
  deriving DecidableEq

inductive Exposing where
  | definition (name : String)
  | binaryOperator (name : String)
  | typeExp (name : String)
  | adt (name : String) (exposing : AdtExposing)
  deriving DecidableEq

/-- Ordered association-list insert with the overwrite behaviour of
`HashMap::insert`: an existing key keeps its position, a new key is
appended. -/
def insertAssoc {α : Type} (key : String) (val : α) : List (String × α) → List (String × α)
  | [] => [(key, val)]
  | (k, v) :: rest =>
      if k = key then (k, val) :: rest else (k, v) :: insertAssoc key val rest

def lookupAssoc {α : Type} (key : String) : List (String × α) → Option α
  | [] => none
  | (k, v) :: rest => if k = key then some v else lookupAssoc key rest

/-- The static environment, modelled from the spec (§4.1):
`analyzer/static_env.rs` is not among the provided sources.  A block holds
the four maps of §3 "StaticEnv"; the stack is kept innermost-first (Rust
keeps the innermost block at the end of the `Vec` and iterates with
`rev()`), which is observationally the same. -/
structure SBlock where
  definitions : List (String × Ty)
  aliases : List (String × Ty)
  adts : List (String × Adt)
  vars : List (String × Ty)
  deriving DecidableEq

def SBlock.empty : SBlock := ⟨[], [], [], []⟩

def StaticEnv := List SBlock

instance : DecidableEq StaticEnv := inferInstanceAs (DecidableEq (List SBlock))

/-- `StaticEnv::new()`: a single empty (global) block. -/
def StaticEnv.new : StaticEnv := [SBlock.empty]

/-- `add_definition`: insert into the innermost block.  Modelled from the
spec §4.1; the innermost block always exists along the analyzer's paths, and
an empty stack (unreachable there) is left unchanged. -/
def StaticEnv.add_definition (env : StaticEnv) (name : String) (ty : Ty) : StaticEnv :=
  match env with
  | [] => []
  | b :: rest => { b with definitions := insertAssoc name ty b.definitions } :: rest

def StaticEnv.add_alias (env : StaticEnv) (name : String) (ty : Ty) : StaticEnv :=
  match env with
  | [] => []
  | b :: rest => { b with aliases := insertAssoc name ty b.aliases } :: rest

def StaticEnv.add_adt (env : StaticEnv) (name : String) (descriptor : Adt) : StaticEnv :=
  match env with
  | [] => []
  | b :: rest => { b with adts := insertAssoc name descriptor b.adts } :: rest

/-- `find_definition`: search innermost-outward (spec §4.1). -/
def StaticEnv.find_definition (env : StaticEnv) (name : String) : Option Ty :=
  match env with
  | [] => none
  | b :: rest =>
      match lookupAssoc name b.definitions with
      | some t => some t
      | none => StaticEnv.find_definition rest name

/-- `enter_block`: push a fresh empty block (spec §4.1). -/
def StaticEnv.enter_block (env : StaticEnv) : StaticEnv := SBlock.empty :: env

/-- `exit_block`: pop the innermost block; popping the global block is the
`InternalError` of spec §4.1, rendered as `none`. -/
def StaticEnv.exit_block (env : StaticEnv) : Option StaticEnv :=
  match env with
  | [] => none
  | [_] => none
  | _ :: rest => some rest

/-- `util::qualified_name`: the dot-joined full name (after its use in
`dependency_sorter.rs`; `path.join "." ++ "." ++ name`). -/
def qualified_name (path : List String) (name : String) : String :=
  String.intercalate "." (path ++ [name])

/-- Insert a name into a set kept as a duplicate-free list in first-insertion
order (deterministic stand-in for `HashSet`). -/
def insertNew (s : List String) (n : String) : List String :=
  if n ∈ s then s else s ++ [n]

mutual
/-- Binders of a pattern.  Modelled from the spec (§4.3, §9): the pattern
analysis (`analyze_function_arguments`) that `add_patterns` in
`dependency_sorter.rs` delegates to is not among the provided sources;
"every pattern binding encountered" is collected over the pattern forms of
§3. -/
def patternBinders : Pattern → List String
  | .var n => [n]
  | .wildcard => []
  | .unit => []
  | .literal _ => []
  | .tuple items => patternListBinders items
  | .list items => patternListBinders items
  | .cons h t => patternBinders h ++ patternBinders t
  | .record fields => fields
  | .tagArgs _ args => patternListBinders args
  | .alias inner n => patternBinders inner ++ [n]
def patternListBinders : PatternList → List String
  | .nil => []
  | .cons p ps => patternBinders p ++ patternListBinders ps
end

/-- `add_patterns` in `dependency_sorter.rs`: every pattern-bound name is
added to the innermost block with `Type::Unit`. -/
def add_patterns (env : StaticEnv) (patterns : List Pattern) : StaticEnv :=
  patterns.foldl (fun e p => (patternBinders p).foldl
    (fun e n => e.add_definition n Ty.unit) e) env

mutual
/-- `get_type_dependencies` in `dependency_sorter.rs`: the `Tag` and `RecExt`
head names occurring anywhere in a type (the recursive pre-order walk of
`util::visitors::type_visitor`, spec §4.2, is fused with the collecting
callback; the collected set is kept in first-visit order). -/
def typeDepsAux : List String → Ty → List String
  | acc, .var _ => acc
  | acc, .tag name args => typeDepsListAux (insertNew acc name) args
  | acc, .arrow a r => typeDepsAux (typeDepsAux acc a) r
  | acc, .unit => acc
  | acc, .tuple elems => typeDepsListAux acc elems
  | acc, .record fields => typeDepsFieldsAux acc fields
  | acc, .recExt name fields => typeDepsFieldsAux (insertNew acc name) fields
def typeDepsListAux : List String → TyList → List String
  | acc, .nil => acc
  | acc, .cons t ts => typeDepsListAux (typeDepsAux acc t) ts
def typeDepsFieldsAux : List String → TyFields → List String
  | acc, .nil => acc
  | acc, .cons _ t ts => typeDepsFieldsAux (typeDepsAux acc t) ts
end

def get_type_dependencies (ty : Ty) : List String := typeDepsAux [] ty

/-- Record a referenced name unless the environment already defines it
(the shared pattern of the `Ref`/`QualifiedRef`/`RecordUpdate`/`OpChain`
arms of `get_expr_dependencies`). -/
def recordRef (env : StaticEnv) (refs : List String) (name : String) : List String :=
  match env.find_definition name with
  | none => insertNew refs name
  | some _ => refs

/-- Binders added on entering a `Let`: for a value declaration the argument
patterns, for a pattern declaration the pattern itself
(`dependency_sorter.rs`, `Expr::Let` arm). -/
def addLetDeclPatterns (env : StaticEnv) : LetDeclList → StaticEnv
  | .nil => env
  | .cons (.defDecl d) rest => addLetDeclPatterns (add_patterns env d.patterns) rest
  | .cons (.patDecl p _) rest => addLetDeclPatterns (add_patterns env [p]) rest

mutual
/-- `get_expr_dependencies` in `dependency_sorter.rs`.  The enter/exit
traversal of `util::visitors::expr_visitor_block` (not among the provided
sources; spec §4.2: `enter_fn` before descending, `exit_fn` after the body
of `Lambda`/`Let`) is fused with the recording callbacks; block exit is the
implicit restoration of the outer `env` argument. -/
def exprDepsAux : StaticEnv → List String → Expr → List String
  | _, refs, .literal _ => refs
  | env, refs, .ref name => recordRef env refs name
  | env, refs, .qualifiedRef path name => recordRef env refs (qualified_name path name)
  | env, refs, .recordField e _ => exprDepsAux env refs e
  | _, refs, .recordAccess _ => refs
  | env, refs, .recordUpdate name fields =>
      exprDepsFieldsAux env (recordRef env refs name) fields
  | env, refs, .ifExpr c t e =>
      exprDepsAux env (exprDepsAux env (exprDepsAux env refs c) t) e
  | env, refs, .caseExpr scrut arms =>
      exprDepsArmsAux env (exprDepsAux env refs scrut) arms
  | env, refs, .application f a => exprDepsAux env (exprDepsAux env refs f) a
  | env, refs, .lambda patterns body =>
      exprDepsAux (add_patterns env.enter_block patterns) refs body
  | env, refs, .letExpr decls body =>
      let env2 := addLetDeclPatterns env.enter_block decls
      exprDepsAux env2 (exprDepsLetAux env2 refs decls) body
  | env, refs, .opChain exprs ops =>
      exprDepsListAux env (ops.foldl (recordRef env) refs) exprs
  | env, refs, .tupleExpr items => exprDepsListAux env refs items
  | env, refs, .listExpr items => exprDepsListAux env refs items
  | env, refs, .recordExpr fields => exprDepsFieldsAux env refs fields
def exprDepsListAux : StaticEnv → List String → ExprList → List String
  | _, refs, .nil => refs
  | env, refs, .cons e es => exprDepsListAux env (exprDepsAux env refs e) es
def exprDepsFieldsAux : StaticEnv → List String → ExprFields → List String
  | _, refs, .nil => refs
  | env, refs, .cons _ e es => exprDepsFieldsAux env (exprDepsAux env refs e) es
def exprDepsArmsAux : StaticEnv → List String → CaseArms → List String
  | _, refs, .nil => refs
  | env, refs, .cons _ e es => exprDepsArmsAux env (exprDepsAux env refs e) es
def exprDepsLetAux : StaticEnv → List String → LetDeclList → List String
  | _, refs, .nil => refs
  | env, refs, .cons (.defDecl (.mk _ _ e _)) rest =>
      exprDepsLetAux env (exprDepsAux env refs e) rest
  | env, refs, .cons (.patDecl _ e) rest => exprDepsLetAux env (exprDepsAux env refs e) rest
end

def get_expr_dependencies (env : StaticEnv) (e : Expr) : List String :=
  exprDepsAux env [] e

/-- `get_stm_name` in `dependency_sorter.rs`. -/
def get_stm_name : Statement → String
  | .alias name _ _ => name
  | .adt name _ _ => name
  | .port name _ => name
  | .defStm d => d.name
  | .infixStm _ _ op _ => op

/-- `get_stm_dependencies` in `dependency_sorter.rs`.  Note the `Adt` arm
collects a `Vec`, not a set: the per-type tag sets are concatenated, so a
type referenced from several variant parameters appears several times. -/
def get_stm_dependencies : Statement → List String
  | .alias _ _ ty => get_type_dependencies ty
  | .port _ ty => get_type_dependencies ty
  | .defStm d => get_expr_dependencies (add_patterns StaticEnv.new d.patterns) d.expr
  | .adt _ _ branches =>
      branches.foldl (fun acc branch =>
        branch.2.foldl (fun acc2 ty => acc2 ++ get_type_dependencies ty) acc) []
  | .infixStm _ _ _ _ => []

/-- One entry of the sorter's `name → (statement, deps)` map. -/
structure SortEntry where
  name : String
  stm : Statement
  deps : List String
  deriving DecidableEq

/-- A statement's dependencies restricted to names defined in the same
module (the `filter` over `local_names` in `sort_statement_dependencies`). -/
def localStmDeps (stms : List Statement) (s : Statement) : List String :=
  (get_stm_dependencies s).filter (fun d => d ∈ stms.map get_stm_name)

/-- Insert with `HashMap::insert` overwrite semantics (key keeps its place). -/
def insertEntry (es : List SortEntry) (e : SortEntry) : List SortEntry :=
  if es.any (fun x => x.name = e.name)
  then es.map (fun x => if x.name = e.name then e else x)
  else es ++ [e]

/-- The initial dependency map of `sort_statement_dependencies` (the
unspecified `HashMap` iteration order is fixed to insertion order). -/
def buildDependencies (stms : List Statement) : List SortEntry :=
  stms.foldl (fun es stm => insertEntry es ⟨get_stm_name stm, stm, localStmDeps stms stm⟩) []

def purgeEntry (names : List String) (e : SortEntry) : SortEntry :=
  ⟨e.name, e.stm, e.deps.filter (fun d => d ∉ names)⟩

/-- The elimination loop of `sort_statement_dependencies`: emit all current
leaves, purge their names, and repeat; a round with no leaves reports a
cycle (`true`).  The `while` loop is run on explicit fuel so that the
definition stays kernel-computable; every round removes at least one entry,
so the fuel `entries.length + 1` supplied by `sortLoop` is never exhausted
(`sortLoopFuel_zero_unreachable` below makes this precise). -/
def sortLoopFuel : Nat → List SortEntry → List Statement → List Statement × Bool
  | 0, _, res => (res, true)
  | fuel + 1, entries, res =>
    if entries = [] then (res, false)
    else if entries.filter (fun e => e.deps = []) = [] then (res, true)
    else
      sortLoopFuel fuel
        ((entries.filter (fun e => ¬ e.deps = [])).map
          (purgeEntry ((entries.filter (fun e => e.deps = [])).map (·.name))))
        (res ++ (entries.filter (fun e => e.deps = [])).map (·.stm))

def sortLoop (entries : List SortEntry) (res : List Statement) : List Statement × Bool :=
  sortLoopFuel (entries.length + 1) entries res

/-- The reference sorter: the elimination loop of
`sort_statement_dependencies` with the purge taken as specified (spec §4.3,
"purge references to those names from all remaining deps"); on a detected
cycle the statements missing from the prefix are appended in their original
source order.  `sort_statement_dependencies` below — the shipped code —
agrees with it whenever no dependency list contains a duplicate name
(`sort_eq_sortRef_of_nodup`). -/
def sortRef (stms : List Statement) : List Statement :=
  let r := sortLoop (buildDependencies stms) []
  if r.2 then r.1 ++ stms.filter (fun s => ¬ s ∈ r.1) else r.1

/-- The positions at which a name occurs in a dependency vector — the
`deps.iter().enumerate().filter(...).map(index)` of the purge loop in
`sort_statement_dependencies`, in ascending order. -/
def matchIdxs (n : String) : List String → List Nat
  | [] => []
  | d :: ds =>
      if d = n then 0 :: (matchIdxs n ds).map (· + 1)
      else (matchIdxs n ds).map (· + 1)

/-- `for index in indexes { deps.remove(index) }`: sequential removals at
the collected (now stale) indexes; `Vec::remove` panics (`none`) once an
index falls outside the shrunken vector.  With duplicate occurrences the
stale indexes remove the wrong elements or panic. -/
def removeIdxs : List String → List Nat → Option (List String)
  | ds, [] => some ds
  | ds, i :: is => if i < ds.length then removeIdxs (ds.eraseIdx i) is else none

/-- One purge of a leaf's name from a dependency vector, exactly as the
shipped loop performs it. -/
def purgeOnceR (n : String) (ds : List String) : Option (List String) :=
  removeIdxs ds (matchIdxs n ds)

/-- Purging one round's leaf names in sequence (the shipped loop processes
the leaves one at a time, purging after each). -/
def purgeEntryR (names : List String) (deps : List String) : Option (List String) :=
  names.foldlM (fun ds n => purgeOnceR n ds) deps

/-- The elimination loop of `sort_statement_dependencies` with the shipped
purge; `none` propagates a `Vec::remove` panic. -/
def sortLoopFuelR : Nat → List SortEntry → List Statement → Option (List Statement × Bool)
  | 0, _, res => some (res, true)
  | fuel + 1, entries, res =>
    if entries = [] then some (res, false)
    else if entries.filter (fun e => e.deps = []) = [] then some (res, true)
    else do
      let purged ← (entries.filter (fun e => ¬ e.deps = [])).mapM
        (fun e => (purgeEntryR ((entries.filter (fun e => e.deps = [])).map (·.name))
            e.deps).map
          (fun ds => SortEntry.mk e.name e.stm ds))
      sortLoopFuelR fuel purged
        (res ++ (entries.filter (fun e => e.deps = [])).map (·.stm))

def sortLoopR (entries : List SortEntry) (res : List Statement) :
    Option (List Statement × Bool) :=
  sortLoopFuelR (entries.length + 1) entries res

/-- `sort_statement_dependencies` in `dependency_sorter.rs`: run the loop
with the shipped purge; on a detected cycle append the statements missing
from the prefix in their original source order; `none` is a purge panic. -/
def sort_statement_dependencies (stms : List Statement) : Option (List Statement) :=
  (sortLoopR (buildDependencies stms) []).map
    (fun r => if r.2 then r.1 ++ stms.filter (fun s => ¬ s ∈ r.1) else r.1)

/-- Every statement's module-local dependency vector is duplicate-free
(false for an `Adt` whose variants mention the same local type twice). -/
def noDupDeps (stms : List Statement) : Prop :=
  ∀ s ∈ stms, (localStmDeps stms s).Nodup

instance (stms : List Statement) : Decidable (noDupDeps stms) := by
  unfold noDupDeps
  infer_instance

/-- `util::build_fun_type`: right-nested function type from a slice.  The
source asserts `types.len() >= 2`; shorter inputs panic, rendered `none`. -/
def build_fun_type : List Ty → Option Ty
  | [] => none
  | [_] => none
  | [a, b] => some (Ty.arrow a b)
  | a :: rest => (build_fun_type rest).map (Ty.arrow a)

/-- `util::create_vec_inv`: clone `start` and push `last`. -/
def create_vec_inv (start : List Ty) (last : Ty) : List Ty := start ++ [last]

/-- `get_fun_return` (module_helper.rs): the final return type of a curried
function type. -/
def get_fun_return : Ty → Ty
  | .arrow _ ret => get_fun_return ret
  | ty => ty

mutual
/-- The free type variables of a type in first-visit order: the `Type::Var`
collection of `analyze_type_alias` in `module_analyser.rs` (the pre-order
walk of `util::visitors::type_visitor`, spec §4.2, fused with the
callback; the `HashSet` is kept as a duplicate-free list). -/
def freeVarsAux : List String → Ty → List String
  | acc, .var v => insertNew acc v
  | acc, .tag _ args => freeVarsListAux acc args
  | acc, .arrow a r => freeVarsAux (freeVarsAux acc a) r
  | acc, .unit => acc
  | acc, .tuple elems => freeVarsListAux acc elems
  | acc, .record fields => freeVarsFieldsAux acc fields
  | acc, .recExt _ fields => freeVarsFieldsAux acc fields
def freeVarsListAux : List String → TyList → List String
  | acc, .nil => acc
  | acc, .cons t ts => freeVarsListAux (freeVarsAux acc t) ts
def freeVarsFieldsAux : List String → TyFields → List String
  | acc, .nil => acc
  | acc, .cons _ t ts => freeVarsFieldsAux (freeVarsAux acc t) ts
end

def freeTypeVars (ty : Ty) : List String := freeVarsAux [] ty

/-- `analyze_type_alias` in `module_analyser.rs`.  Only the numbers of
used and declared variables are compared; the success value carries the
alias and, for a record body, the auxiliary constructor function.  `none`
models the `build_fun_type` length assertion firing (body `Record []` with
no declared variables). -/
def analyze_type_alias (name : String) (decl_vars : List String) (ty : Ty) :
    Option (Except TypeError (List Declaration)) :=
  let used_vars := freeTypeVars ty
  if used_vars.length < decl_vars.length then
    some (.error (.unusedTypeVariables (decl_vars.filter (fun t => t ∉ used_vars))))
  else if decl_vars.length < used_vars.length then
    some (.error (.undeclaredTypeVariables (used_vars.filter (fun t => t ∉ decl_vars))))
  else
    match ty with
    | .record entries =>
        (build_fun_type ((entries.toList.map (·.2)) ++ [ty])).map
          (fun ctor => .ok [Declaration.alias name ty, Declaration.defn name ctor])
    | _ => some (.ok [Declaration.alias name ty])

/-- `analyze_adt` in `module_analyser.rs`: one `Adt` declaration plus one
constructor `Def` per variant, typed by `build_fun_type` over the variant
parameters extended with the tag type.  `none` models the `build_fun_type`
length assertion firing, which a zero-parameter variant does. -/
def analyze_adt (name : String) (decl_vars : List String)
    (variants : List (String × List Ty)) : Option (List Declaration) :=
  let vars : List Ty := decl_vars.map Ty.var
  let adt : Adt :=
    { name := name
      types := decl_vars
      variants := variants.map (fun v => { name := v.1, types := v.2 }) }
  let adt_type := Ty.tag name (TyList.ofList vars)
  (variants.mapM (fun v =>
      (build_fun_type (create_vec_inv v.2 adt_type)).map (Declaration.defn v.1))).map
    (fun ctors => Declaration.adt name adt :: ctors)

/-- `analyze_port` in `module_analyser.rs`. -/
def analyze_port (name : String) (ty : Ty) : List Declaration :=
  [Declaration.defn name ty]

/-- Whether a declaration is a `Def` whose (curried) return type is the tag
`name` — the constructor test of the `Exposing::Adt` arms of
`get_exposed_decls` in `module_analyser.rs`. -/
def isCtorOf (name : String) : Declaration → Bool
  | .defn _ ty =>
      match get_fun_return ty with
      | .tag tag_name _ => tag_name = name
      | _ => false
  | _ => false

def isAdtNamed (name : String) : Declaration → Bool
  | .adt adt_name _ => adt_name = name
  | _ => false

def isTypeNamed (name : String) : Declaration → Bool
  | .alias alias_name _ => alias_name = name
  | .adt adt_name _ => adt_name = name
  | _ => false

def isDefNamed (name : String) : Declaration → Bool
  | .defn def_name _ => def_name = name
  | _ => false

/-- One iteration of the `get_exposed_decls` loop in `module_analyser.rs`:
the declarations pushed for a single exposing item, or the error that
aborts the whole call. -/
def exposedDeclsFor (all_decls : List Declaration) :
    Exposing → Except RuntimeError (List Declaration)
  | .adt name adt_exp =>
      let ctors :=
        match adt_exp with
        | .variants variants =>
            all_decls.filter (fun d =>
              match d with
              | .defn variant_name _ => variants.contains variant_name && isCtorOf name d
              | _ => false)
        | .all => all_decls.filter (isCtorOf name)
      match all_decls.find? (isAdtNamed name) with
      | some decl => .ok (ctors ++ [decl])
      | none => .error (.missingExposing name all_decls)
  | .typeExp name =>
      match all_decls.find? (isTypeNamed name) with
      | some decl => .ok [decl]
      | none => .error (.missingExposing name all_decls)
  | .binaryOperator name =>
      match all_decls.find? (isDefNamed name) with
      | some decl => .ok [decl]
      | none => .ok []
  | .definition name =>
      match all_decls.find? (isDefNamed name) with
      | some decl => .ok [decl]
      | none => .error (.missingExposing name all_decls)

/-- `get_exposed_decls` in `module_analyser.rs`: fold the per-item selection
over the exposing list, with `?`-style early return. -/
def get_exposed_decls (all_decls : List Declaration) :
    List Exposing → Except RuntimeError (List Declaration)
  | [] => .ok []
  | exp :: rest => do
      let ds ← exposedDeclsFor all_decls exp
      let more ← get_exposed_decls all_decls rest
      pure (ds ++ more)

/-- A block of `Environment` in `interpreter (environment.rs)`, generic in
the runtime value type (the analyzer never inspects values); the `Adt`
descriptor and alias maps mirror the source's `Block`, the `variables` map
is `vars`. -/
structure EBlock (α : Type) where
  defs : List (String × α)
  adts : List (String × Adt)
  aliases : List (String × Ty)
  vars : List (String × Ty)
  deriving DecidableEq

def EBlock.empty (α : Type) : EBlock α := ⟨[], [], [], []⟩

/-- `Environment` in `environment.rs`: a stack of blocks, kept
innermost-first (Rust keeps the innermost block at the end of its `Vec` and
iterates with `rev()`). -/
structure Environment (α : Type) where
  blocks : List (EBlock α)
  deriving DecidableEq

/-- `Environment::new()`: a single empty global block. -/
def Environment.new (α : Type) : Environment α := ⟨[EBlock.empty α]⟩

/-- `Environment::add`: insert into the innermost block
(`last_mut().unwrap()` panics on an empty stack, rendered `none`). -/
def Environment.add (env : Environment α) (name : String) (v : α) :
    Option (Environment α) :=
  match env.blocks with
  | [] => none
  | b :: rest => some ⟨{ b with defs := insertAssoc name v b.defs } :: rest⟩

def findInBlocks (name : String) : List (EBlock α) → Option α
  | [] => none
  | b :: rest =>
      match lookupAssoc name b.defs with
      | some v => some v
      | none => findInBlocks name rest

/-- `Environment::find`: innermost-outward lookup. -/
def Environment.find (env : Environment α) (name : String) : Option α :=
  findInBlocks name env.blocks

/-- `Environment::enter_block`: push a fresh empty block. -/
def Environment.enter_block (env : Environment α) : Environment α :=
  ⟨EBlock.empty α :: env.blocks⟩

/-- `Environment::exit_block`: `self.0.pop().expect("Tried to exit the
global block")` — `pop` succeeds whenever the stack is non-empty, including
on the lone global block; only a pop of an already-empty stack panics
(rendered `none`). -/
def Environment.exit_block (env : Environment α) : Option (Environment α) :=
  match env.blocks with
  | [] => none
  | _ :: rest => some ⟨rest⟩

/-- `DynamicEnv` in `dynamic_env.rs`: a value stack in lock-step with a
`StaticEnv` for types.  The function-call cache and its `FunCall` keys are
not touched by any operation modelled here and are omitted. -/
structure DynamicEnv (α : Type) where
  types : StaticEnv
  values : List (List (String × α))
  next_fun_id : Nat
  deriving DecidableEq

def DynamicEnv.new (α : Type) : DynamicEnv α :=
  { types := StaticEnv.new, values := [[]], next_fun_id := 0 }

/-- `DynamicEnv::add`: add the type to the static env and the value to the
innermost map (`last_mut().unwrap()` panics on an empty stack). -/
def DynamicEnv.add (env : DynamicEnv α) (name : String) (val : α) (ty : Ty) :
    Option (DynamicEnv α) :=
  match env.values with
  | [] => none
  | m :: rest =>
      some { env with
              types := env.types.add_definition name ty
              values := insertAssoc name val m :: rest }

/-- `DynamicEnv::find`: scan the value maps innermost-outward; on the first
hit, pair the value with `types.find_definition` (via `Option::zip`). -/
def DynamicEnv.find (env : DynamicEnv α) (name : String) : Option (α × Ty) :=
  let rec go : List (List (String × α)) → Option α
    | [] => none
    | m :: rest =>
        match lookupAssoc name m with
        | some v => some v
        | none => go rest
  (go env.values).bind (fun v => (env.types.find_definition name).map (fun t => (v, t)))

def DynamicEnv.enter_block (env : DynamicEnv α) : DynamicEnv α :=
  { env with types := env.types.enter_block, values := [] :: env.values }

/-- `DynamicEnv::exit_block`: exit the static block, then
`values.pop().expect(...)` — as in `Environment.exit_block` the pop of the
lone global map succeeds. -/
def DynamicEnv.exit_block (env : DynamicEnv α) : Option (DynamicEnv α) :=
  (env.types.exit_block).bind (fun types =>
    match env.values with
    | [] => none
    | _ :: rest => some { env with types := types, values := rest })

/-- A bracketed operation on an `Environment`/`DynamicEnv` between
`enter_block` and `exit_block`: an `add` (mutating) or a `find` (pure). -/
inductive EnvOp (α : Type) where
  | add (name : String) (v : α)
  | find (name : String)

def applyOps : List (EnvOp α) → Environment α → Option (Environment α)
  | [], env => some env
  | .add n v :: rest, env => (env.add n v).bind (applyOps rest)
  | .find _ :: rest, env => applyOps rest env

/-- Bracketed operations on a `DynamicEnv` (`add` carries value and type). -/
inductive DynOp (α : Type) where
  | add (name : String) (v : α) (ty : Ty)
  | find (name : String)

def applyDynOps : List (DynOp α) → DynamicEnv α → Option (DynamicEnv α)
  | [], env => some env
  | .add n v t :: rest, env => (env.add n v t).bind (applyDynOps rest)
  | .find _ :: rest, env => applyDynOps rest env

/-- Push analysed declarations into the environment by kind — the
`match decl` in the success arm of `analyze_module_declarations`
(`module_analyser.rs`). -/
def pushDecls (env : StaticEnv) : List Declaration → StaticEnv
  | [] => env
  | .defn name ty :: rest => pushDecls (env.add_definition name ty) rest
  | .alias name ty :: rest => pushDecls (env.add_alias name ty) rest
  | .adt name adt :: rest => pushDecls (env.add_adt name adt) rest

/-- `sort_statements` as called by `analyze_module_declarations`.  Modelled
from the spec (§4.3 "Failure (cycles)"): the version of
`dependency_sorter.rs` this caller links against is not among the provided
sources (the provided one exports `sort_statement_dependencies` instead);
per the spec's alternative, a detected cycle is returned as an error
carrying the names of the statements left unordered. -/
def sort_statements (stms : List Statement) : Except (List String) (List Statement) :=
  let r := sortLoop (buildDependencies stms) []
  if r.2 then .error ((stms.filter (fun s => ¬ s ∈ r.1)).map get_stm_name)
  else .ok r.1

/-- The statement loop of `analyze_module_declarations`
(`module_analyser.rs` lines 74–98), with the per-statement analyser
abstracted as `f` (its `Def` arm delegates to the out-of-scope
Hindley-Milner engine, spec §4.4): successes extend the environment and the
declaration list, failures are collected, and the loop never stops early.
Returns (final environment, declarations in push order, errors in
statement order). -/
def analyzeLoop (f : StaticEnv → Statement → Except TypeError (List Declaration)) :
    StaticEnv → List Statement → StaticEnv × List Declaration × List TypeError
  | env, [] => (env, [], [])
  | env, stm :: rest =>
      match f env stm with
      | .ok decls =>
          let r := analyzeLoop f (pushDecls env decls) rest
          (r.1, decls ++ r.2.1, r.2.2)
      | .error e =>
          let r := analyzeLoop f env rest
          (r.1, r.2.1, e :: r.2.2)

/-- `analyze_module_declarations` (`module_analyser.rs`): sort, then run the
collection loop; `Ok` with all declarations when no statement failed,
`Err(TypeError::List(errors))` otherwise.  The mutated environment is
returned alongside the result. -/
def analyze_module_declarations
    (f : StaticEnv → Statement → Except TypeError (List Declaration))
    (env : StaticEnv) (statements : List Statement) :
    StaticEnv × Except TypeError (List Declaration) :=
  match sort_statements statements with
  | .error cycle => (env, .error (.cyclicStatementDependency cycle))
  | .ok sorted =>
      let r := analyzeLoop f env sorted
      if r.2.2 = [] then (r.1, .ok r.2.1)
      else (r.1, .error (.list (TypeErrorList.ofList r.2.2)))

/-- Specification-side recursion: the environment after analysing a
statement list, pushing each success. -/
def envAfter (f : StaticEnv → Statement → Except TypeError (List Declaration)) :
    StaticEnv → List Statement → StaticEnv
  | env, [] => env
  | env, stm :: rest =>
      match f env stm with
      | .ok decls => envAfter f (pushDecls env decls) rest
      | .error _ => envAfter f env rest

/-- Specification-side recursion: the declarations of the successful
statements, in analysis order. -/
def okDecls (f : StaticEnv → Statement → Except TypeError (List Declaration)) :
    StaticEnv → List Statement → List Declaration
  | _, [] => []
  | env, stm :: rest =>
      match f env stm with
      | .ok decls => decls ++ okDecls f (pushDecls env decls) rest
      | .error _ => okDecls f env rest

/-- Specification-side recursion: the errors of the failing statements, in
statement order (analysis continues past each failure). -/
def collectErrors (f : StaticEnv → Statement → Except TypeError (List Declaration)) :
    StaticEnv → List Statement → List TypeError
  | _, [] => []
  | env, stm :: rest =>
      match f env stm with
      | .ok decls => collectErrors f (pushDecls env decls) rest
      | .error e => e :: collectErrors f env rest

/-- Specification-side recursion: how many statements analyse successfully. -/
def countOk (f : StaticEnv → Statement → Except TypeError (List Declaration)) :
    StaticEnv → List Statement → Nat
  | _, [] => 0
  | env, stm :: rest =>
      match f env stm with
      | .ok decls => countOk f (pushDecls env decls) rest + 1
      | .error _ => countOk f env rest

/-- The dependency graph the sorter works on: `deps` of the entry recorded
for a name (the last same-named statement wins, as with `HashMap::insert`). -/
def entryNames (stms : List Statement) : List String :=
  (buildDependencies stms).map (·.name)

/-- A dependency cycle in the recorded graph: a non-empty set of recorded
names each of which depends on a member of the set. -/
def hasCycle (stms : List Statement) : Prop :=
  ∃ S ∈ (entryNames stms).toFinset.powerset, S.Nonempty ∧
    ∀ n ∈ S, ∃ e ∈ buildDependencies stms, e.name = n ∧ ∃ d ∈ e.deps, d ∈ S

instance (stms : List Statement) : Decidable (hasCycle stms) := by
  unfold hasCycle
  infer_instance

/-- `l` is topologically sorted with respect to the module-local
dependencies of `stms`: a statement whose name another statement references
comes strictly earlier. -/
def topoSorted (stms : List Statement) (l : List Statement) : Prop :=
  ∀ i j : Fin l.length,
    get_stm_name (l.get i) ∈ localStmDeps stms (l.get j) → (i : Nat) < (j : Nat)

instance (stms l : List Statement) : Decidable (topoSorted stms l) := by
  unfold topoSorted
  infer_instance

instance {ε α : Type} [DecidableEq ε] [DecidableEq α] : DecidableEq (Except ε α) :=
  fun a b =>
    match a, b with
    | .error e, .error e2 =>
        if h : e = e2 then isTrue (by rw [h]) else isFalse (by intro hc; cases hc; exact h rfl)
    | .error _, .ok _ => isFalse (by intro hc; cases hc)
    | .ok _, .error _ => isFalse (by intro hc; cases hc)
    | .ok x, .ok y =>
        if h : x = y then isTrue (by rw [h]) else isFalse (by intro hc; cases hc; exact h rfl)

/-- A sample per-statement analyser for the C7 witness: ports succeed via
`analyze_port`, everything else fails. -/
def sampleAnalyzer : StaticEnv → Statement → Except TypeError (List Declaration) :=
  fun _ stm =>
    match stm with
    | .port n ty => .ok (analyze_port n ty)
    | _ => .error .internalError

/-- The entry `sort_statement_dependencies` records for a statement. -/
def entryOf (stms : List Statement) (s : Statement) : SortEntry :=
  ⟨get_stm_name s, s, localStmDeps stms s⟩

/-- Every emitted statement's module-local dependencies name only
statements emitted strictly earlier. -/
def prefixSorted (stms res : List Statement) : Prop :=
  ∀ j : Fin res.length, ∀ d ∈ localStmDeps stms (res.get j),
    d ∈ (res.take j).map get_stm_name

/-- Loop invariant tying the live entries to the initial dependency map:
each live entry descends from a recorded entry (same name and statement),
its deps are a subset of the recorded local deps, and every recorded local
dep is either still pending or already emitted. -/
def entryInv (stms res : List Statement) (entries : List SortEntry) : Prop :=
  ∀ e ∈ entries,
    entryOf stms e.stm ∈ buildDependencies stms
    ∧ e.name = get_stm_name e.stm
    ∧ (∀ d ∈ e.deps, d ∈ localStmDeps stms e.stm)
    ∧ (∀ d ∈ localStmDeps stms e.stm, d ∈ e.deps ∨ d ∈ res.map get_stm_name)

/-- Loop invariant: live dependencies point at live entries. -/
def depsClosed (entries : List SortEntry) : Prop :=
  ∀ e ∈ entries, ∀ d ∈ e.deps, d ∈ entries.map (·.name)

/-- The repository's own test module (`"\ny = x + 1\n\nx = 0\n\nz = y"`),
used as a concrete acyclic input. -/
def stmtX : Statement := .defStm (.mk "x" [] (.literal (.int 0)) none)

def stmtY : Statement :=
  .defStm (.mk "y" []
    (.opChain (.cons (.ref "x") (.cons (.literal (.int 1)) .nil)) ["+"]) none)

def stmtZ : Statement := .defStm (.mk "z" [] (.ref "y") none)

/-- A two-statement dependency cycle (`a = b`, `b = a`). -/
def stmtA : Statement := .defStm (.mk "a" [] (.ref "b") none)

def stmtB : Statement := .defStm (.mk "b" [] (.ref "a") none)

/-- `w = X` — a value definition referencing the ADT name `X`. -/
def cstmW : Statement := .defStm (.mk "w" [] (.ref "X") none)

/-- `type X = A T | B T | C U` — its dependency vector is `["T","T","U"]`,
with a duplicate `"T"`. -/
def cstmX : Statement :=
  .adt "X" [] [("A", [Ty.tag "T" TyList.nil]), ("B", [Ty.tag "T" TyList.nil]),
               ("C", [Ty.tag "U" TyList.nil])]

/-- `type X = A T | B T` — its dependency vector is `["T","T"]`. -/
def cstmX2 : Statement :=
  .adt "X" [] [("A", [Ty.tag "T" TyList.nil]), ("B", [Ty.tag "T" TyList.nil])]

/-- `type T = CT`. -/
def cstmT : Statement := .adt "T" [] [("CT", [])]

/-- `type U = CU`. -/
def cstmU : Statement := .adt "U" [] [("CU", [])]

theorem length_filter_lt_of_mem {α : Type} (p : α → Bool) :
    ∀ (l : List α) (x : α), x ∈ l → p x = false → (l.filter p).length < l.length := by
  intro l
  induction l with
  | nil => intro x hx _; cases hx
  | cons a t ih =>
    intro x hx hpx
    rcases List.mem_cons.mp hx with rfl | hxt
    · rw [List.filter_cons, hpx]
      exact Nat.lt_succ_of_le (List.length_filter_le _ _)
    · by_cases hpa : p a
      · rw [List.filter_cons, hpa]
        exact Nat.succ_lt_succ (ih x hxt hpx)
      · rw [List.filter_cons, Bool.not_eq_true] at *
        rw [hpa]
        exact Nat.lt_succ_of_lt (ih x hxt hpx)

theorem build_fun_type_succeeds :
    ∀ l : List Ty, 2 ≤ l.length → ∃ t, build_fun_type l = some t := by
  intro l
  induction l with
  | nil => intro h; simp at h
  | cons a rest ih =>
    intro _
    match rest with
    | [] => simp at *
    | [b] => exact ⟨Ty.arrow a b, rfl⟩
    | b :: c :: rest2 =>
        rcases ih (by simp) with ⟨t, ht⟩
        exact ⟨Ty.arrow a t, by simp [build_fun_type, ht]⟩

theorem applyOps_shape {α : Type} :
    ∀ (ops : List (EnvOp α)) (b : EBlock α) (rest : List (EBlock α)),
      ∃ b2, applyOps ops ⟨b :: rest⟩ = some ⟨b2 :: rest⟩ := by
  intro ops
  induction ops with
  | nil => intro b rest; exact ⟨b, rfl⟩
  | cons op ops ih =>
    intro b rest
    cases op with
    | add n v =>
        rcases ih { b with defs := insertAssoc n v b.defs } rest with ⟨b2, h2⟩
        exact ⟨b2, by simpa [applyOps, Environment.add] using h2⟩
    | find n =>
        rcases ih b rest with ⟨b2, h2⟩
        exact ⟨b2, by simpa [applyOps] using h2⟩

theorem applyDynOps_shape {α : Type} :
    ∀ (dops : List (DynOp α)) (tb : SBlock) (trest : StaticEnv)
      (m : List (String × α)) (vrest : List (List (String × α))) (fid : Nat),
      ∃ tb2 m2,
        applyDynOps dops ⟨tb :: trest, m :: vrest, fid⟩
          = some ⟨tb2 :: trest, m2 :: vrest, fid⟩ := by
  intro dops
  induction dops with
  | nil => intro tb trest m vrest fid; exact ⟨tb, m, rfl⟩
  | cons op ops ih =>
    intro tb trest m vrest fid
    cases op with
    | add n v t =>
        rcases ih { tb with definitions := insertAssoc n t tb.definitions } trest
          (insertAssoc n v m) vrest fid with ⟨tb2, m2, h2⟩
        exact ⟨tb2, m2, by
          simpa [applyDynOps, DynamicEnv.add, StaticEnv.add_definition] using h2⟩
    | find n =>
        rcases ih tb trest m vrest fid with ⟨tb2, m2, h2⟩
        exact ⟨tb2, m2, by simpa [applyDynOps] using h2⟩

/-- C8: a matched `enter_block`/`exit_block` pair around any sequence of
`add`/`find` operations restores the environment — literally, hence every
subsequent `find` (values) and `find_definition` (types) answers as before
the pair.  Stated for `Environment` (environment.rs) and for `DynamicEnv`
(dynamic_env.rs); the latter assumes the spec invariant (§3) that the type
stack is never empty. -/
theorem env_bracket_restores {α : Type} (env : Environment α) (ops : List (EnvOp α))
    (denv : DynamicEnv α) (dops : List (DynOp α)) (hne : denv.types ≠ []) :
    (applyOps ops env.enter_block).bind Environment.exit_block = some env
    ∧ (applyDynOps dops denv.enter_block).bind DynamicEnv.exit_block = some denv := by
  constructor
  · rcases applyOps_shape ops (EBlock.empty α) env.blocks with ⟨b2, h2⟩
    have : env.enter_block = ⟨EBlock.empty α :: env.blocks⟩ := rfl
    rw [this, h2]
    rfl
  · obtain ⟨dtypes, dvalues, dfid⟩ := denv
    rcases List.exists_cons_of_ne_nil hne with ⟨t, ts, hts⟩
    subst hts
    rcases applyDynOps_shape dops SBlock.empty (t :: ts) [] dvalues dfid
      with ⟨tb2, m2, h2⟩
    have henter : DynamicEnv.enter_block ⟨t :: ts, dvalues, dfid⟩
        = ⟨SBlock.empty :: t :: ts, [] :: dvalues, dfid⟩ := rfl
    rw [henter, h2]
    rfl

/-- C8 witness: the bracket theorem applied to a concrete environment and
operation sequence. -/
theorem env_bracket_restores_witness :
    (applyOps [EnvOp.add "x" Ty.unit, EnvOp.find "x"]
        (Environment.new Ty).enter_block).bind Environment.exit_block
      = some (Environment.new Ty)
    ∧ (applyDynOps [DynOp.add "x" Ty.unit Ty.unit]
        (DynamicEnv.new Ty).enter_block).bind DynamicEnv.exit_block
      = some (DynamicEnv.new Ty) :=
  env_bracket_restores (Environment.new Ty) [EnvOp.add "x" Ty.unit, EnvOp.find "x"]
    (DynamicEnv.new Ty) [DynOp.add "x" Ty.unit Ty.unit] (by decide)

/-- C9: `exit_block` on an environment holding only the global block does
not fail — `Vec::pop` succeeds and leaves the block stack empty; only the
next `exit_block` hits the `expect` panic.  This contradicts the
documented contract ("popping the global block is an `InternalError`"),
whose intent the source's own panic message states. -/
theorem exit_block_pops_the_global_block :
    Environment.exit_block (Environment.new Ty) = some ⟨[]⟩
    ∧ (Environment.new Ty).blocks.length = 1
    ∧ Environment.exit_block (⟨[]⟩ : Environment Ty) = none :=
  ⟨rfl, rfl, rfl⟩

/-- C4: `analyze_adt` on the spec's own example `type Adt = A | B` panics —
`build_fun_type` asserts at least two types, and a zero-parameter variant
supplies only the tag type — while a variant with parameters gets the
curried constructor the claim describes. -/
theorem analyze_adt_zero_arity_variant_panics :
    analyze_adt "Adt" [] [("A", []), ("B", [])] = none
    ∧ analyze_adt "Maybe" ["a"] [("Just", [Ty.var "a"])]
        = some [Declaration.adt "Maybe"
                  { name := "Maybe", types := ["a"],
                    variants := [{ name := "Just", types := [Ty.var "a"] }] },
                Declaration.defn "Just"
                  (Ty.arrow (Ty.var "a")
                    (Ty.tag "Maybe" (TyList.cons (Ty.var "a") TyList.nil)))] :=
  ⟨rfl, rfl⟩

/-- C2 counterexample: `analyze_type_alias` compares only the *numbers* of
free and declared type variables, so `alias A a = b` — whose free-variable
set `{b}` differs from the declared list `[a]` — succeeds, where the claim
requires set equality and hence failure. -/
theorem analyze_type_alias_ignores_identity :
    analyze_type_alias "A" ["a"] (Ty.var "b")
      = some (Except.ok [Declaration.alias "A" (Ty.var "b")])
    ∧ freeTypeVars (Ty.var "b") = ["b"] :=
  ⟨rfl, rfl⟩

/-- C2 (amended): `analyze_type_alias` succeeds precisely when the number
of distinct free type variables equals the number of declared variables
(the sets themselves are not compared); with fewer free variables it fails
with `UnusedTypeVariables` listing the declared-but-unused names, with more
it fails with `UndeclaredTypeVariables` listing the used-but-undeclared
names; the one exception is the empty-record body with no declared
variables, where the record-constructor helper `build_fun_type` hits its
length assertion (a panic, `none`). -/
theorem analyze_type_alias_count_rules (name : String) (decl_vars : List String) (ty : Ty) :
    ((freeTypeVars ty).length < decl_vars.length →
        analyze_type_alias name decl_vars ty
          = some (.error (.unusedTypeVariables
              (decl_vars.filter (fun t => t ∉ freeTypeVars ty)))))
    ∧ (decl_vars.length < (freeTypeVars ty).length →
        analyze_type_alias name decl_vars ty
          = some (.error (.undeclaredTypeVariables
              ((freeTypeVars ty).filter (fun t => t ∉ decl_vars)))))
    ∧ ((freeTypeVars ty).length = decl_vars.length →
        (ty = Ty.record TyFields.nil → analyze_type_alias name decl_vars ty = none)
        ∧ (ty ≠ Ty.record TyFields.nil →
            ∃ ds, analyze_type_alias name decl_vars ty = some (.ok ds)
              ∧ ds.head? = some (Declaration.alias name ty))) := by
  refine ⟨fun hlt => ?_, fun hgt => ?_, fun heq => ⟨fun hrec => ?_, fun hnrec => ?_⟩⟩
  · simp [analyze_type_alias, hlt]
  · simp [analyze_type_alias, Nat.lt_asymm hgt, hgt]
  · subst hrec
    have h1 : ¬ (freeTypeVars (Ty.record TyFields.nil)).length < decl_vars.length := by
      omega
    have h2 : ¬ decl_vars.length < (freeTypeVars (Ty.record TyFields.nil)).length := by
      omega
    simp [analyze_type_alias, h1, h2, build_fun_type, TyFields.toList]
  · have hlt' : ¬ (freeTypeVars ty).length < decl_vars.length := by omega
    have hgt' : ¬ decl_vars.length < (freeTypeVars ty).length := by omega
    cases ty with
    | record fields =>
        cases fields with
        | nil => exact absurd rfl hnrec
        | cons fn ft frest =>
            rcases build_fun_type_succeeds
                (((TyFields.cons fn ft frest).toList.map (·.2))
                  ++ [Ty.record (TyFields.cons fn ft frest)])
                (by simp [TyFields.toList]) with ⟨t, htt⟩
            refine ⟨[Declaration.alias name (Ty.record (TyFields.cons fn ft frest)),
                     Declaration.defn name t], ?_, rfl⟩
            simp [analyze_type_alias, hlt', hgt', htt]
    | var v =>
        exact ⟨[Declaration.alias name (Ty.var v)],
          by simp [analyze_type_alias, hlt', hgt'], rfl⟩
    | tag n args =>
        exact ⟨[Declaration.alias name (Ty.tag n args)],
          by simp [analyze_type_alias, hlt', hgt'], rfl⟩
    | arrow a r =>
        exact ⟨[Declaration.alias name (Ty.arrow a r)],
          by simp [analyze_type_alias, hlt', hgt'], rfl⟩
    | unit =>
        exact ⟨[Declaration.alias name Ty.unit],
          by simp [analyze_type_alias, hlt', hgt'], rfl⟩
    | tuple elems =>
        exact ⟨[Declaration.alias name (Ty.tuple elems)],
          by simp [analyze_type_alias, hlt', hgt'], rfl⟩
    | recExt n fs =>
        exact ⟨[Declaration.alias name (Ty.recExt n fs)],
          by simp [analyze_type_alias, hlt', hgt'], rfl⟩

/-- C2 witness: the amended rules applied at the spec's E5 inputs
(`alias A a = a` with vars `["a","b"]`, and with vars `[]`). -/
theorem analyze_type_alias_count_rules_witness :
    analyze_type_alias "A" ["a", "b"] (Ty.var "a")
      = some (.error (.unusedTypeVariables ["b"]))
    ∧ analyze_type_alias "A" [] (Ty.var "a")
      = some (.error (.undeclaredTypeVariables ["a"])) := by
  constructor
  · have h := (analyze_type_alias_count_rules "A" ["a", "b"] (Ty.var "a")).1 (by decide)
    simpa using h
  · have h := (analyze_type_alias_count_rules "A" [] (Ty.var "a")).2.1 (by decide)
    simpa using h

theorem except_bind_ok {ε α β : Type} (a : α) (f : α → Except ε β) :
    (Except.ok a >>= f) = f a := rfl

theorem except_bind_error {ε α β : Type} (e : ε) (f : α → Except ε β) :
    (Except.error e >>= f) = (Except.error e : Except ε β) := rfl

/-- C5: exposing `Adt(T, All)` against a declaration list selects exactly
the constructor `Def`s — those whose curried return type is `Tag(T, …)` —
followed by the first `Adt` descriptor named `T`; without such a
descriptor the whole selection fails with `MissingExposing(T)` (carrying
the declaration list, as in the source). -/
theorem get_exposed_decls_adt_all (all_decls : List Declaration) (T : String) :
    (∀ a, all_decls.find? (isAdtNamed T) = some a →
        get_exposed_decls all_decls [Exposing.adt T AdtExposing.all]
          = .ok (all_decls.filter (isCtorOf T) ++ [a])
        ∧ ∀ d, d ∈ all_decls.filter (isCtorOf T) ++ [a]
            ↔ ((d ∈ all_decls ∧ isCtorOf T d) ∨ d = a))
    ∧ (all_decls.find? (isAdtNamed T) = none →
        get_exposed_decls all_decls [Exposing.adt T AdtExposing.all]
          = .error (.missingExposing T all_decls)) := by
  constructor
  · intro a ha
    constructor
    · simp [get_exposed_decls, exposedDeclsFor, ha, except_bind_ok, except_bind_error]
    · intro d
      simp [List.mem_append, List.mem_filter]
  · intro ha
    simp [get_exposed_decls, exposedDeclsFor, ha, except_bind_ok, except_bind_error]

/-- C5 witness: the selection applied to a concrete module. -/
theorem get_exposed_decls_adt_all_witness :
    get_exposed_decls
        [Declaration.defn "A" (Ty.tag "Adt" TyList.nil),
         Declaration.adt "Adt" { name := "Adt", types := [], variants := [] },
         Declaration.defn "f" (Ty.arrow Ty.unit Ty.unit)]
        [Exposing.adt "Adt" AdtExposing.all]
      = .ok [Declaration.defn "A" (Ty.tag "Adt" TyList.nil),
             Declaration.adt "Adt" { name := "Adt", types := [], variants := [] }] := by
  have h := ((get_exposed_decls_adt_all
      [Declaration.defn "A" (Ty.tag "Adt" TyList.nil),
       Declaration.adt "Adt" { name := "Adt", types := [], variants := [] },
       Declaration.defn "f" (Ty.arrow Ty.unit Ty.unit)] "Adt").1
      (Declaration.adt "Adt" { name := "Adt", types := [], variants := [] }) (by decide)).1
  simpa using h

/-- C6 counterexample: a `BinaryOperator` exposing with no matching `Def`
is silently skipped — the selection returns `Ok []`, not
`MissingExposing` as the claim states. -/
theorem get_exposed_decls_binop_missing_skipped :
    get_exposed_decls [] [Exposing.binaryOperator "+"] = .ok [] := rfl

/-- C6 (amended): `Definition(n)` with no `Def` named `n` fails with
`MissingExposing(n)` and succeeds selecting the first such `Def` otherwise;
`BinaryOperator(n)` selects the `Def` when present but is silently skipped
(no error) when absent. -/
theorem get_exposed_decls_definition_vs_binop (all_decls : List Declaration) (n : String) :
    (all_decls.find? (isDefNamed n) = none →
        get_exposed_decls all_decls [Exposing.definition n]
          = .error (.missingExposing n all_decls)
        ∧ get_exposed_decls all_decls [Exposing.binaryOperator n] = .ok [])
    ∧ (∀ d, all_decls.find? (isDefNamed n) = some d →
        get_exposed_decls all_decls [Exposing.definition n] = .ok [d]
        ∧ get_exposed_decls all_decls [Exposing.binaryOperator n] = .ok [d]) := by
  constructor
  · intro h
    constructor <;> simp [get_exposed_decls, exposedDeclsFor, h, except_bind_ok, except_bind_error]
  · intro d h
    constructor <;> simp [get_exposed_decls, exposedDeclsFor, h, except_bind_ok, except_bind_error]

/-- C6 witness: both exposing kinds at a present and an absent name. -/
theorem get_exposed_decls_definition_vs_binop_witness :
    get_exposed_decls [Declaration.defn "x" Ty.unit] [Exposing.definition "y"]
      = .error (.missingExposing "y" [Declaration.defn "x" Ty.unit])
    ∧ get_exposed_decls [Declaration.defn "x" Ty.unit] [Exposing.binaryOperator "x"]
      = .ok [Declaration.defn "x" Ty.unit] := by
  constructor
  · exact ((get_exposed_decls_definition_vs_binop [Declaration.defn "x" Ty.unit] "y").1
      (by decide)).1
  · exact ((get_exposed_decls_definition_vs_binop [Declaration.defn "x" Ty.unit] "x").2
      (Declaration.defn "x" Ty.unit) (by decide)).2

theorem analyzeLoop_spec (f : StaticEnv → Statement → Except TypeError (List Declaration)) :
    ∀ (l : List Statement) (env : StaticEnv),
      analyzeLoop f env l = (envAfter f env l, okDecls f env l, collectErrors f env l) := by
  intro l
  induction l with
  | nil => intro env; rfl
  | cons stm rest ih =>
    intro env
    cases hf : f env stm with
    | ok decls => simp [analyzeLoop, envAfter, okDecls, collectErrors, hf, ih]
    | error e => simp [analyzeLoop, envAfter, okDecls, collectErrors, hf, ih]

theorem collectErrors_countOk (f : StaticEnv → Statement → Except TypeError (List Declaration)) :
    ∀ (l : List Statement) (env : StaticEnv),
      (collectErrors f env l).length + countOk f env l = l.length := by
  intro l
  induction l with
  | nil => intro env; rfl
  | cons stm rest ih =>
    intro env
    cases hf : f env stm with
    | ok decls =>
        simp only [collectErrors, countOk, hf, List.length_cons]
        have := ih (pushDecls env decls)
        omega
    | error e =>
        simp only [collectErrors, countOk, hf, List.length_cons]
        have := ih env
        omega

/-- C7: when sorting succeeds, `analyze_module_declarations` analyses every
sorted statement — the error count plus the success count is the statement
count, so no failure stops the loop — threads every success's declarations
into the environment (`envAfter`), and returns `Err(TypeError::List(errors))`
exactly when at least one statement failed, `Ok` with all declarations in
analysis order otherwise. -/
theorem analyze_module_declarations_collects
    (f : StaticEnv → Statement → Except TypeError (List Declaration))
    (env : StaticEnv) (stms sorted : List Statement)
    (h : sort_statements stms = .ok sorted) :
    analyze_module_declarations f env stms
      = (envAfter f env sorted,
          if collectErrors f env sorted = []
          then .ok (okDecls f env sorted)
          else .error (.list (TypeErrorList.ofList (collectErrors f env sorted))))
    ∧ (collectErrors f env sorted).length + countOk f env sorted = sorted.length := by
  constructor
  · unfold analyze_module_declarations
    rw [h]
    simp only [analyzeLoop_spec]
    split <;> rfl
  · exact collectErrors_countOk f sorted env

/-- C7 witness: the collection behaviour at a concrete module body with one
succeeding and one failing statement. -/
theorem analyze_module_declarations_collects_witness :
    analyze_module_declarations sampleAnalyzer StaticEnv.new
        [Statement.port "p" Ty.unit, Statement.alias "B" ["a"] Ty.unit]
      = (envAfter sampleAnalyzer StaticEnv.new
          [Statement.port "p" Ty.unit, Statement.alias "B" ["a"] Ty.unit],
          if collectErrors sampleAnalyzer StaticEnv.new
              [Statement.port "p" Ty.unit, Statement.alias "B" ["a"] Ty.unit] = []
          then .ok (okDecls sampleAnalyzer StaticEnv.new
              [Statement.port "p" Ty.unit, Statement.alias "B" ["a"] Ty.unit])
          else .error (.list (TypeErrorList.ofList (collectErrors sampleAnalyzer
              StaticEnv.new
              [Statement.port "p" Ty.unit, Statement.alias "B" ["a"] Ty.unit]))))
    ∧ (collectErrors sampleAnalyzer StaticEnv.new
          [Statement.port "p" Ty.unit, Statement.alias "B" ["a"] Ty.unit]).length
        + countOk sampleAnalyzer StaticEnv.new
            [Statement.port "p" Ty.unit, Statement.alias "B" ["a"] Ty.unit]
      = 2 :=
  analyze_module_declarations_collects sampleAnalyzer StaticEnv.new
    [Statement.port "p" Ty.unit, Statement.alias "B" ["a"] Ty.unit]
    [Statement.port "p" Ty.unit, Statement.alias "B" ["a"] Ty.unit] (by decide)

theorem buildDependencies_eq_foldl (stms : List Statement) :
    buildDependencies stms
      = stms.foldl (fun es stm => insertEntry es (entryOf stms stm)) [] := rfl

theorem insertEntry_names (es : List SortEntry) (e : SortEntry) :
    (insertEntry es e).map (·.name)
      = if es.any (fun x => x.name = e.name) then es.map (·.name)
        else es.map (·.name) ++ [e.name] := by
  unfold insertEntry
  split
  · rw [List.map_map]
    apply List.map_congr_left
    intro x _
    by_cases hx : x.name = e.name <;> simp [hx]
  · simp

theorem insertEntry_mem (es : List SortEntry) (e : SortEntry) :
    ∀ x ∈ insertEntry es e, x ∈ es ∨ x = e := by
  intro x hx
  unfold insertEntry at hx
  split at hx
  · rcases List.mem_map.mp hx with ⟨y, hy, hxy⟩
    by_cases hyn : y.name = e.name
    · rw [if_pos hyn] at hxy
      exact Or.inr hxy.symm
    · rw [if_neg hyn] at hxy
      exact Or.inl (hxy ▸ hy)
  · rcases List.mem_append.mp hx with h | h
    · exact Or.inl h
    · exact Or.inr (List.mem_singleton.mp h)

theorem name_mem_insertEntry (es : List SortEntry) (e : SortEntry) (n : String)
    (h : n ∈ es.map (·.name) ∨ n = e.name) :
    n ∈ (insertEntry es e).map (·.name) := by
  rw [insertEntry_names]
  split
  · rcases h with h | h
    · exact h
    · next hany =>
        rcases List.any_eq_true.mp hany with ⟨x, hx, hxn⟩
        exact h ▸ (List.mem_map.mpr ⟨x, hx, by simpa using hxn⟩)
  · rcases h with h | h
    · exact List.mem_append.mpr (Or.inl h)
    · exact List.mem_append.mpr (Or.inr (by simp [h]))

theorem foldl_insert_names_nodup (stms : List Statement) :
    ∀ (l : List Statement) (acc : List SortEntry),
      (acc.map (·.name)).Nodup →
      ((l.foldl (fun es stm => insertEntry es (entryOf stms stm)) acc).map (·.name)).Nodup := by
  intro l
  induction l with
  | nil => intro acc h; exact h
  | cons s rest ih =>
    intro acc h
    apply ih
    rw [insertEntry_names]
    split
    · exact h
    · next hany =>
        rw [List.nodup_append]
        refine ⟨h, List.nodup_singleton _, ?_⟩
        intro n hn hn1
        rcases List.mem_map.mp hn with ⟨x, hx, hxn⟩
        rw [List.mem_singleton.mp hn1] at hxn
        exact absurd (List.any_eq_true.mpr ⟨x, hx, by simp [hxn]⟩) hany

theorem buildDependencies_names_nodup (stms : List Statement) :
    ((buildDependencies stms).map (·.name)).Nodup := by
  rw [buildDependencies_eq_foldl]
  exact foldl_insert_names_nodup stms stms [] (by simp)

theorem foldl_insert_mem (stms : List Statement) :
    ∀ (l : List Statement) (acc : List SortEntry),
      ∀ x ∈ l.foldl (fun es stm => insertEntry es (entryOf stms stm)) acc,
        x ∈ acc ∨ ∃ s ∈ l, x = entryOf stms s := by
  intro l
  induction l with
  | nil => intro acc x hx; exact Or.inl hx
  | cons s rest ih =>
    intro acc x hx
    rcases ih _ x hx with h | ⟨s2, hs2, hx2⟩
    · rcases insertEntry_mem _ _ x h with h2 | h2
      · exact Or.inl h2
      · exact Or.inr ⟨s, List.mem_cons_self s rest, h2⟩
    · exact Or.inr ⟨s2, List.mem_cons_of_mem s hs2, hx2⟩

theorem buildDependencies_mem (stms : List Statement) :
    ∀ e ∈ buildDependencies stms, ∃ s ∈ stms, e = entryOf stms s := by
  intro e he
  rw [buildDependencies_eq_foldl] at he
  rcases foldl_insert_mem stms stms [] e he with h | h
  · cases h
  · exact h

theorem foldl_insert_name_complete (stms : List Statement) :
    ∀ (l : List Statement) (acc : List SortEntry) (n : String),
      ((∃ s ∈ l, n = get_stm_name s) ∨ n ∈ acc.map (·.name)) →
      n ∈ (l.foldl (fun es stm => insertEntry es (entryOf stms stm)) acc).map (·.name) := by
  intro l
  induction l with
  | nil =>
    intro acc n h
    rcases h with ⟨s, hs, _⟩ | h
    · cases hs
    · exact h
  | cons s rest ih =>
    intro acc n h
    apply ih
    rcases h with ⟨s2, hs2, hn⟩ | h
    · rcases List.mem_cons.mp hs2 with rfl | hs2
      · exact Or.inr (name_mem_insertEntry _ _ _ (Or.inr hn))
      · exact Or.inl ⟨s2, hs2, hn⟩
    · exact Or.inr (name_mem_insertEntry _ _ _ (Or.inl h))

theorem buildDependencies_name_complete (stms : List Statement) :
    ∀ s ∈ stms, get_stm_name s ∈ (buildDependencies stms).map (·.name) := by
  intro s hs
  rw [buildDependencies_eq_foldl]
  exact foldl_insert_name_complete stms stms [] _ (Or.inl ⟨s, hs, rfl⟩)

theorem localStmDeps_subset (stms : List Statement) (s : Statement) :
    ∀ d ∈ localStmDeps stms s, d ∈ stms.map get_stm_name := by
  intro d hd
  exact of_decide_eq_true (List.mem_filter.mp hd).2

theorem localStmDeps_mem_keys (stms : List Statement) (s : Statement) :
    ∀ d ∈ localStmDeps stms s, d ∈ (buildDependencies stms).map (·.name) := by
  intro d hd
  rcases List.mem_map.mp (localStmDeps_subset stms s d hd) with ⟨s2, hs2, hd2⟩
  exact hd2 ▸ buildDependencies_name_complete stms s2 hs2

theorem foldl_insert_fresh (stms : List Statement) :
    ∀ (l : List Statement) (acc : List SortEntry),
      (∀ s ∈ l, get_stm_name s ∉ acc.map (·.name)) →
      (l.map get_stm_name).Nodup →
      l.foldl (fun es stm => insertEntry es (entryOf stms stm)) acc
        = acc ++ l.map (entryOf stms) := by
  intro l
  induction l with
  | nil => intro acc _ _; simp
  | cons s rest ih =>
    intro acc hfresh hnd
    have hstep : insertEntry acc (entryOf stms s) = acc ++ [entryOf stms s] := by
      unfold insertEntry
      rw [if_neg]
      intro hany
      rcases List.any_eq_true.mp hany with ⟨x, hx, hxn⟩
      exact hfresh s (List.mem_cons_self s rest)
        (List.mem_map.mpr ⟨x, hx, by simpa [entryOf] using hxn⟩)
    simp only [List.foldl_cons, hstep]
    rw [ih (acc ++ [entryOf stms s]) ?_ (by simpa using hnd.of_cons)]
    · simp [entryOf]
    · intro s2 hs2 hmem
      rcases List.mem_map.mp hmem with ⟨x, hx, hxn⟩
      rcases List.mem_append.mp hx with hx2 | hx2
      · exact hfresh s2 (List.mem_cons_of_mem s hs2) (List.mem_map.mpr ⟨x, hx2, hxn⟩)
      · rw [List.mem_singleton.mp hx2] at hxn
        have : get_stm_name s ∈ rest.map get_stm_name :=
          List.mem_map.mpr ⟨s2, hs2, by simpa [entryOf] using hxn.symm⟩
        exact (List.nodup_cons.mp (by simpa using hnd)).1 this

theorem buildDependencies_of_nodup (stms : List Statement)
    (h : (stms.map get_stm_name).Nodup) :
    buildDependencies stms = stms.map (entryOf stms) := by
  rw [buildDependencies_eq_foldl]
  simpa using foldl_insert_fresh stms stms [] (by simp) h

theorem round_partition_perm (entries : List SortEntry) :
    (entries.filter (fun e => e.deps = [])
      ++ entries.filter (fun e => ¬ e.deps = [])).Perm entries := by
  have h := List.filter_append_perm (fun e => decide (e.deps = [])) entries
  simpa [decide_not] using h

theorem purge_map_name (names : List String) (l : List SortEntry) :
    (l.map (purgeEntry names)).map (·.name) = l.map (·.name) := by
  rw [List.map_map]; rfl

theorem purge_map_stm (names : List String) (l : List SortEntry) :
    (l.map (purgeEntry names)).map (·.stm) = l.map (·.stm) := by
  rw [List.map_map]; rfl

theorem prefixSorted_append (stms res newPart : List Statement)
    (hpre : prefixSorted stms res)
    (hnew : ∀ s ∈ newPart, ∀ d ∈ localStmDeps stms s, d ∈ res.map get_stm_name) :
    prefixSorted stms (res ++ newPart) := by
  intro j d hd
  by_cases hj : (j : Nat) < res.length
  · have hget : (res ++ newPart).get j = res.get ⟨j, hj⟩ := by
      simp [List.getElem_append_left hj]
    rw [hget] at hd
    have := hpre ⟨j, hj⟩ d hd
    have htake : (res ++ newPart).take j = res.take j :=
      List.take_append_of_le_length (Nat.le_of_lt hj)
    rw [htake]
    exact this
  · push_neg at hj
    have hjlt : (j : Nat) - res.length < newPart.length := by
      have := j.isLt
      simp [List.length_append] at this
      omega
    have hget : (res ++ newPart).get j = newPart.get ⟨(j : Nat) - res.length, hjlt⟩ := by
      simp [List.getElem_append_right hj]
    rw [hget] at hd
    have hs : newPart.get ⟨(j : Nat) - res.length, hjlt⟩ ∈ newPart := List.get_mem _ _ _
    have hd2 := hnew _ hs d hd
    have htake : (res ++ newPart).take j = res ++ newPart.take ((j : Nat) - res.length) := by
      conv_lhs => rw [show (j : Nat) = res.length + ((j : Nat) - res.length) from by omega]
      rw [List.take_append]
    rw [htake, List.map_append]
    exact List.mem_append.mpr (Or.inl hd2)

theorem sortLoopFuel_master (stms : List Statement) :
    ∀ (fuel : Nat) (entries : List SortEntry) (res : List Statement),
      entries.length < fuel →
      entryInv stms res entries →
      (res.map get_stm_name ++ entries.map (·.name)).Nodup →
      depsClosed entries →
      prefixSorted stms res →
      prefixSorted stms (sortLoopFuel fuel entries res).1
      ∧ ((sortLoopFuel fuel entries res).1.map get_stm_name).Nodup
      ∧ ((sortLoopFuel fuel entries res).2 = true → hasCycle stms) := by
  intro fuel
  induction fuel with
  | zero => intro entries res hlen; omega
  | succ fuel ih =>
    intro entries res hlen hinv hnames hclosed hpre
    by_cases hentries : entries = []
    · subst hentries
      refine ⟨by simpa [sortLoopFuel] using hpre, ?_, ?_⟩
      · have h2 : (res.map get_stm_name).Nodup := by simpa using hnames
        simpa [sortLoopFuel] using h2
      · intro hdet
        simp [sortLoopFuel] at hdet
    · by_cases hleafs : entries.filter (fun e => e.deps = []) = []
      · have hr : sortLoopFuel (fuel + 1) entries res = (res, true) := by
          simp [sortLoopFuel, hentries, hleafs]
        rw [hr]
        refine ⟨hpre, (List.nodup_append.mp hnames).1, fun _ => ?_⟩
        rcases List.exists_mem_of_ne_nil entries hentries with ⟨e0, he0⟩
        refine ⟨(entries.map (·.name)).toFinset, ?_, ?_, ?_⟩
        · rw [Finset.mem_powerset]
          intro n hn
          rw [List.mem_toFinset] at hn
          rcases List.mem_map.mp hn with ⟨e, he, hen⟩
          rcases hinv e he with ⟨horig, hname, _, _⟩
          rw [List.mem_toFinset]
          exact hen ▸ hname ▸ List.mem_map.mpr ⟨entryOf stms e.stm, horig, rfl⟩
        · exact ⟨e0.name, List.mem_toFinset.mpr (List.mem_map.mpr ⟨e0, he0, rfl⟩)⟩
        · intro n hn
          rcases List.mem_map.mp (List.mem_toFinset.mp hn) with ⟨e, he, hen⟩
          rcases hinv e he with ⟨horig, hname, hdep1, _⟩
          have hne : ¬ e.deps = [] := by
            have := List.filter_eq_nil_iff.mp hleafs e he
            simpa using this
          rcases List.exists_mem_of_ne_nil e.deps hne with ⟨d, hd⟩
          refine ⟨entryOf stms e.stm, horig, by simpa [entryOf, ← hname] using hen, d,
            hdep1 d hd, ?_⟩
          rw [List.mem_toFinset]
          exact hclosed e he d hd
      · -- a round with at least one leaf
        have hr : sortLoopFuel (fuel + 1) entries res
            = sortLoopFuel fuel
                ((entries.filter (fun e => ¬ e.deps = [])).map
                  (purgeEntry ((entries.filter (fun e => e.deps = [])).map (·.name))))
                (res ++ (entries.filter (fun e => e.deps = [])).map (·.stm)) := by
          simp [sortLoopFuel, hentries, hleafs]
        rw [hr]
        set L := entries.filter (fun e => e.deps = []) with hL
        set NL := entries.filter (fun e => ¬ e.deps = []) with hNL
        set lnames := L.map (·.name) with hlnames
        set P := NL.map (purgeEntry lnames) with hP
        set res2 := res ++ L.map (·.stm) with hres2
        have hLsub : ∀ e ∈ L, e ∈ entries ∧ e.deps = [] := by
          intro e he
          have := List.mem_filter.mp he
          exact ⟨this.1, by simpa using this.2⟩
        have hNLsub : ∀ e ∈ NL, e ∈ entries ∧ ¬ e.deps = [] := by
          intro e he
          have := List.mem_filter.mp he
          exact ⟨this.1, by simpa using this.2⟩
        have hLnames_eq : (L.map (·.stm)).map get_stm_name = lnames := by
          rw [List.map_map, hlnames]
          apply List.map_congr_left
          intro e he
          exact ((hinv e (hLsub e he).1).2.1).symm
        have hres2names : res2.map get_stm_name = res.map get_stm_name ++ lnames := by
          rw [hres2, List.map_append, hLnames_eq]
        have hPnames : P.map (·.name) = NL.map (·.name) := purge_map_name _ _
        have hnames_perm : (entries.map (·.name)).Perm (lnames ++ NL.map (·.name)) := by
          rw [hlnames, hNL, hL]
          have := (round_partition_perm entries).symm.map (·.name)
          simpa using this
        -- the new Nodup hypothesis
        have hnames2 : (res2.map get_stm_name ++ P.map (·.name)).Nodup := by
          rw [hres2names, hPnames]
          have hperm : ((res.map get_stm_name ++ lnames) ++ NL.map (·.name)).Perm
              (res.map get_stm_name ++ entries.map (·.name)) := by
            rw [List.append_assoc]
            exact (hnames_perm.symm).append_left (res.map get_stm_name)
          exact hperm.symm.nodup hnames
        -- disjointness tools from the original Nodup
        have hnodup_names : (entries.map (·.name)).Nodup :=
          (List.nodup_append.mp hnames).2.1
        have hLN_nodup : (lnames ++ NL.map (·.name)).Nodup :=
          hnames_perm.nodup hnodup_names
        have hLN_disj : ∀ n ∈ lnames, n ∉ NL.map (·.name) := by
          intro n hn hn2
          exact (List.nodup_append.mp hLN_nodup).2.2 hn hn2
        -- membership transfer: a non-leaf name survives purging
        have hemem : ∀ n, n ∈ entries.map (·.name) → n ∉ lnames → n ∈ NL.map (·.name) := by
          intro n hn hnl
          have := hnames_perm.mem_iff.mp hn
          rcases List.mem_append.mp this with h | h
          · exact absurd h hnl
          · exact h
        have hinv2 : entryInv stms res2 P := by
          intro e2 he2
          rcases List.mem_map.mp he2 with ⟨e, heNL, he2eq⟩
          rcases hinv e (hNLsub e heNL).1 with ⟨horig, hname, hdep1, hdep2⟩
          subst he2eq
          refine ⟨horig, hname, ?_, ?_⟩
          · intro d hd
            exact hdep1 d (List.mem_filter.mp hd).1
          · intro d hd
            rcases hdep2 d hd with h | h
            · by_cases hdl : d ∈ lnames
              · right
                rw [hres2names]
                exact List.mem_append.mpr (Or.inr hdl)
              · left
                simp only [purgeEntry]
                exact List.mem_filter.mpr ⟨h, by simpa using hdl⟩
            · right
              rw [hres2names]
              exact List.mem_append.mpr (Or.inl h)
        have hclosed2 : depsClosed P := by
          intro e2 he2 d hd
          rcases List.mem_map.mp he2 with ⟨e, heNL, he2eq⟩
          subst he2eq
          simp only [purgeEntry] at hd
          rcases List.mem_filter.mp hd with ⟨hd1, hd2⟩
          have hdn : d ∉ lnames := by simpa using hd2
          rw [hPnames]
          exact hemem d (hclosed e (hNLsub e heNL).1 d hd1) hdn
        have hpre2 : prefixSorted stms res2 := by
          apply prefixSorted_append stms res _ hpre
          intro s hs d hd
          rcases List.mem_map.mp hs with ⟨e, heL, hseq⟩
          rcases hLsub e heL with ⟨hee, hdeps⟩
          rcases hinv e hee with ⟨_, _, _, hdep2⟩
          rcases hdep2 d (hseq ▸ hd) with h | h
          · rw [hdeps] at h
            cases h
          · exact h
        have hlen2 : P.length < fuel := by
          have h1 : P.length = NL.length := by rw [hP, List.length_map]
          have h2 : NL.length < entries.length := by
            rcases List.exists_mem_of_ne_nil L hleafs with ⟨e, he⟩
            rcases hLsub e he with ⟨hee, hdeps⟩
            exact length_filter_lt_of_mem _ entries e hee (by simp [hdeps])
          omega
        exact ih P res2 hlen2 hinv2 hnames2 hclosed2 hpre2

theorem subperm_nodup {α : Type} {l1 l2 : List α} (h : l1.Subperm l2) (h2 : l2.Nodup) :
    l1.Nodup := by
  rcases h with ⟨l, hperm, hsub⟩
  exact hperm.nodup (hsub.nodup h2)

theorem sortLoopFuel_completes_acyclic :
    ∀ (fuel : Nat) (entries : List SortEntry) (res : List Statement),
      entries.length < fuel →
      (entries.map (·.name)).Nodup →
      depsClosed entries →
      (sortLoopFuel fuel entries res).2 = false →
      ∀ S : Finset String, S.Nonempty → (∀ n ∈ S, n ∈ entries.map (·.name)) →
        ∃ n ∈ S, ∀ e ∈ entries, e.name = n → ∀ d ∈ e.deps, d ∉ S := by
  intro fuel
  induction fuel with
  | zero => intro entries res hlen; omega
  | succ fuel ih =>
    intro entries res hlen hnodup hclosed hdet S hS hSsub
    by_cases hentries : entries = []
    · subst hentries
      rcases hS with ⟨n, hn⟩
      have := hSsub n hn
      simp at this
    · by_cases hleafs : entries.filter (fun e => e.deps = []) = []
      · simp [sortLoopFuel, hentries, hleafs] at hdet
      · have hdet2 : (sortLoopFuel fuel
            ((entries.filter (fun e => ¬ e.deps = [])).map
              (purgeEntry ((entries.filter (fun e => e.deps = [])).map (·.name))))
            (res ++ (entries.filter (fun e => e.deps = [])).map (·.stm))).2 = false := by
          have hr : sortLoopFuel (fuel + 1) entries res
              = sortLoopFuel fuel
                  ((entries.filter (fun e => ¬ e.deps = [])).map
                    (purgeEntry ((entries.filter (fun e => e.deps = [])).map (·.name))))
                  (res ++ (entries.filter (fun e => e.deps = [])).map (·.stm)) := by
            simp [sortLoopFuel, hentries, hleafs]
          rw [← hr]
          exact hdet
        set L := entries.filter (fun e => e.deps = []) with hL
        set NL := entries.filter (fun e => ¬ e.deps = []) with hNL
        set lnames := L.map (·.name) with hlnames
        set P := NL.map (purgeEntry lnames) with hP
        have hLsub : ∀ e ∈ L, e ∈ entries ∧ e.deps = [] := by
          intro e he
          have := List.mem_filter.mp he
          exact ⟨this.1, by simpa using this.2⟩
        have hNLsub : ∀ e ∈ NL, e ∈ entries ∧ ¬ e.deps = [] := by
          intro e he
          have := List.mem_filter.mp he
          exact ⟨this.1, by simpa using this.2⟩
        have hPnames : P.map (·.name) = NL.map (·.name) := purge_map_name _ _
        have hnames_perm : (entries.map (·.name)).Perm (lnames ++ NL.map (·.name)) := by
          rw [hlnames, hNL, hL]
          have := (round_partition_perm entries).symm.map (·.name)
          simpa using this
        have hLN_nodup : (lnames ++ NL.map (·.name)).Nodup := hnames_perm.nodup hnodup
        have hLN_disj : ∀ n ∈ lnames, n ∉ NL.map (·.name) := by
          intro n hn hn2
          exact (List.nodup_append.mp hLN_nodup).2.2 hn hn2
        have hemem : ∀ n, n ∈ entries.map (·.name) → n ∉ lnames → n ∈ NL.map (·.name) := by
          intro n hn hnl
          rcases List.mem_append.mp (hnames_perm.mem_iff.mp hn) with h | h
          · exact absurd h hnl
          · exact h
        have hlen2 : P.length < fuel := by
          have h1 : P.length = NL.length := by rw [hP, List.length_map]
          have h2 : NL.length < entries.length := by
            rcases List.exists_mem_of_ne_nil L hleafs with ⟨e, he⟩
            rcases hLsub e he with ⟨hee, hdeps⟩
            exact length_filter_lt_of_mem _ entries e hee (by simp [hdeps])
          omega
        have hnodup2 : (P.map (·.name)).Nodup := by
          rw [hPnames]
          exact (List.nodup_append.mp hLN_nodup).2.1
        have hclosed2 : depsClosed P := by
          intro e2 he2 d hd
          rcases List.mem_map.mp he2 with ⟨e, heNL, he2eq⟩
          subst he2eq
          simp only [purgeEntry] at hd
          rcases List.mem_filter.mp hd with ⟨hd1, hd2⟩
          have hdn : d ∉ lnames := by simpa using hd2
          rw [hPnames]
          exact hemem d (hclosed e (hNLsub e heNL).1 d hd1) hdn
        by_cases hSL : ∃ n ∈ S, n ∈ lnames
        · rcases hSL with ⟨n, hnS, hnl⟩
          refine ⟨n, hnS, ?_⟩
          intro e he hen d hd hdS
          have heNL : e ∈ NL := by
            rw [hNL]
            exact List.mem_filter.mpr ⟨he, by simp [List.ne_nil_of_mem hd]⟩
          exact hLN_disj n hnl (List.mem_map.mpr ⟨e, heNL, hen⟩)
        · push_neg at hSL
          have hSsub2 : ∀ n ∈ S, n ∈ P.map (·.name) := by
            intro n hn
            rw [hPnames]
            exact hemem n (hSsub n hn) (hSL n hn)
          rcases ih P _ hlen2 hnodup2 hclosed2 hdet2 S hS hSsub2 with ⟨n, hnS, hprop⟩
          refine ⟨n, hnS, ?_⟩
          intro e he hen d hd
          have heNL : e ∈ NL := by
            rw [hNL]
            by_cases hdeps : e.deps = []
            · exfalso
              have hleaf : e ∈ L := by
                rw [hL]
                exact List.mem_filter.mpr ⟨he, by simp [hdeps]⟩
              exact hSL n hnS (hen ▸ List.mem_map.mpr ⟨e, hleaf, rfl⟩)
            · exact List.mem_filter.mpr ⟨he, by simp [hdeps]⟩
          by_cases hdl : d ∈ lnames
          · intro hdS
            exact hSL d hdS hdl
          · apply hprop (purgeEntry lnames e) (List.mem_map.mpr ⟨e, heNL, rfl⟩)
              (by simpa [purgeEntry] using hen) d
            simp only [purgeEntry]
            exact List.mem_filter.mpr ⟨hd, by simpa using hdl⟩

theorem sortLoopFuel_perm :
    ∀ (fuel : Nat) (entries : List SortEntry) (res : List Statement),
      entries.length < fuel →
      (((sortLoopFuel fuel entries res).2 = false →
          ((sortLoopFuel fuel entries res).1).Perm (res ++ entries.map (·.stm)))
        ∧ ((sortLoopFuel fuel entries res).1).Subperm (res ++ entries.map (·.stm))) := by
  intro fuel
  induction fuel with
  | zero => intro entries res hlen; omega
  | succ fuel ih =>
    intro entries res hlen
    by_cases hentries : entries = []
    · subst hentries
      constructor
      · intro _
        simp [sortLoopFuel]
      · simp [sortLoopFuel]
        exact List.Subperm.refl res
    · by_cases hleafs : entries.filter (fun e => e.deps = []) = []
      · have hr : sortLoopFuel (fuel + 1) entries res = (res, true) := by
          simp [sortLoopFuel, hentries, hleafs]
        rw [hr]
        refine ⟨fun h => by simp at h, (List.sublist_append_left res _).subperm⟩
      · have hr : sortLoopFuel (fuel + 1) entries res
            = sortLoopFuel fuel
                ((entries.filter (fun e => ¬ e.deps = [])).map
                  (purgeEntry ((entries.filter (fun e => e.deps = [])).map (·.name))))
                (res ++ (entries.filter (fun e => e.deps = [])).map (·.stm)) := by
          simp [sortLoopFuel, hentries, hleafs]
        rw [hr]
        set L := entries.filter (fun e => e.deps = []) with hL
        set NL := entries.filter (fun e => ¬ e.deps = []) with hNL
        set lnames := L.map (·.name) with hlnames
        set P := NL.map (purgeEntry lnames) with hP
        have hPstm : P.map (·.stm) = NL.map (·.stm) := purge_map_stm _ _
        have hstm_perm : (entries.map (·.stm)).Perm (L.map (·.stm) ++ NL.map (·.stm)) := by
          rw [hNL, hL]
          have := (round_partition_perm entries).symm.map (·.stm)
          simpa using this
        have hbig : ((res ++ L.map (·.stm)) ++ P.map (·.stm)).Perm
            (res ++ entries.map (·.stm)) := by
          rw [hPstm, List.append_assoc]
          exact (hstm_perm.symm).append_left res
        have hlen2 : P.length < fuel := by
          have h1 : P.length = NL.length := by rw [hP, List.length_map]
          have h2 : NL.length < entries.length := by
            rcases List.exists_mem_of_ne_nil L hleafs with ⟨e, he⟩
            have hee := List.mem_filter.mp he
            exact length_filter_lt_of_mem _ entries e hee.1
              (by simp [of_decide_eq_true hee.2])
          omega
        rcases ih P (res ++ L.map (·.stm)) hlen2 with ⟨ihperm, ihsub⟩
        constructor
        · intro hdet
          exact (ihperm hdet).trans hbig
        · exact ihsub.trans hbig.subperm

theorem topoSorted_of_prefixSorted (stms l : List Statement)
    (h1 : prefixSorted stms l) (h2 : (l.map get_stm_name).Nodup) :
    topoSorted stms l := by
  intro i j hmem
  have h3 := h1 j _ hmem
  rcases List.mem_map.mp h3 with ⟨s, hs, hname⟩
  rcases List.mem_iff_getElem.mp hs with ⟨k, hk, hks⟩
  have hkj : k < (j : Nat) := by
    have := hk
    simp [List.length_take] at this
    omega
  have hkl : k < l.length := Nat.lt_trans hkj j.isLt
  have hlk : l[k] = s := by
    rw [← hks]
    exact (List.getElem_take _).symm
  have hmapeq : (l.map get_stm_name).get ⟨k, by simpa using hkl⟩
      = (l.map get_stm_name).get ⟨(i : Nat), by simp [i.isLt]⟩ := by
    simp only [List.get_eq_getElem, List.getElem_map]
    rw [hlk, hname]
    simp
  have hfin := (List.Nodup.get_inj_iff h2).mp hmapeq
  have : k = (i : Nat) := congrArg Fin.val hfin
  omega

theorem initial_entryInv (stms : List Statement) :
    entryInv stms [] (buildDependencies stms) := by
  intro e he
  rcases buildDependencies_mem stms e he with ⟨s, hs, rfl⟩
  exact ⟨he, rfl, fun d hd => hd, fun d hd => Or.inl hd⟩

theorem initial_depsClosed (stms : List Statement) :
    depsClosed (buildDependencies stms) := by
  intro e he d hd
  rcases buildDependencies_mem stms e he with ⟨s, hs, rfl⟩
  exact localStmDeps_mem_keys stms s d hd

/-- Cycle detection is exact: the elimination loop gets stuck precisely on
inputs whose recorded dependency graph has a cycle. -/
theorem detected_iff_hasCycle (stms : List Statement) :
    (sortLoop (buildDependencies stms) []).2 = true ↔ hasCycle stms := by
  constructor
  · intro h
    exact (sortLoopFuel_master stms ((buildDependencies stms).length + 1)
      (buildDependencies stms) [] (Nat.lt_succ_self _) (initial_entryInv stms)
      (by simpa using buildDependencies_names_nodup stms)
      (initial_depsClosed stms) (fun j => absurd j.isLt (by simp))).2.2 h
  · intro hcyc
    by_contra hdet
    have hdet2 : (sortLoop (buildDependencies stms) []).2 = false :=
      Bool.not_eq_true _ ▸ (by simpa using hdet)
    rcases hcyc with ⟨S, hSp, hSne, hSedge⟩
    have hSsub : ∀ n ∈ S, n ∈ (buildDependencies stms).map (·.name) := by
      intro n hn
      have := Finset.mem_powerset.mp hSp hn
      simpa [entryNames] using List.mem_toFinset.mp this
    rcases sortLoopFuel_completes_acyclic ((buildDependencies stms).length + 1)
        (buildDependencies stms) [] (Nat.lt_succ_self _)
        (buildDependencies_names_nodup stms) (initial_depsClosed stms) hdet2
        S hSne hSsub with ⟨n, hnS, hn⟩
    rcases hSedge n hnS with ⟨e, he, hen, d, hd, hdS⟩
    exact hn e he hen d hd hdS

/-- On an input whose recorded dependency graph has no cycle, the reference
sorter returns a topologically sorted sequence. -/
theorem sortRef_topological (stms : List Statement)
    (h : ¬ hasCycle stms) :
    topoSorted stms (sortRef stms) := by
  have hdet : (sortLoop (buildDependencies stms) []).2 = false := by
    cases hb : (sortLoop (buildDependencies stms) []).2 with
    | false => rfl
    | true => exact absurd ((detected_iff_hasCycle stms).mp hb) h
  have hm := sortLoopFuel_master stms ((buildDependencies stms).length + 1)
    (buildDependencies stms) [] (Nat.lt_succ_self _) (initial_entryInv stms)
    (by simpa using buildDependencies_names_nodup stms) (initial_depsClosed stms)
    (fun j => absurd j.isLt (by simp))
  have hout : sortRef stms = (sortLoop (buildDependencies stms) []).1 := by
    simp [sortRef, hdet]
  rw [hout]
  exact topoSorted_of_prefixSorted stms _ (by simpa [sortLoop] using hm.1)
    (by simpa [sortLoop] using hm.2.1)

/-- On an input whose recorded dependency graph has a cycle, the reference
sorter returns its dependency-ordered prefix followed by all remaining
statements in source order; nothing is dropped. -/
theorem sortRef_cycle_order (stms : List Statement)
    (h : hasCycle stms) :
    ∃ pre, sortRef stms
        = pre ++ stms.filter (fun s => ¬ s ∈ pre)
      ∧ topoSorted stms pre
      ∧ ∀ s ∈ stms, s ∈ sortRef stms := by
  have hdet := (detected_iff_hasCycle stms).mpr h
  have hm := sortLoopFuel_master stms ((buildDependencies stms).length + 1)
    (buildDependencies stms) [] (Nat.lt_succ_self _) (initial_entryInv stms)
    (by simpa using buildDependencies_names_nodup stms) (initial_depsClosed stms)
    (fun j => absurd j.isLt (by simp))
  refine ⟨(sortLoop (buildDependencies stms) []).1, ?_, ?_, ?_⟩
  · simp [sortRef, hdet]
  · exact topoSorted_of_prefixSorted stms _ (by simpa [sortLoop] using hm.1)
      (by simpa [sortLoop] using hm.2.1)
  · intro s hs
    simp only [sortRef, hdet, if_true]
    by_cases hsp : s ∈ (sortLoop (buildDependencies stms) []).1
    · exact List.mem_append.mpr (Or.inl hsp)
    · exact List.mem_append.mpr (Or.inr (List.mem_filter.mpr ⟨hs, by simpa using hsp⟩))

/-- When the statements' names are pairwise distinct, the reference
sorter's output is a permutation of its input. -/
theorem sortRef_permutation (stms : List Statement)
    (h : (stms.map get_stm_name).Nodup) :
    (sortRef stms).Perm stms := by
  have hstm_eq : (buildDependencies stms).map (·.stm) = stms := by
    rw [buildDependencies_of_nodup stms h, List.map_map]
    calc stms.map ((·.stm) ∘ entryOf stms)
        = stms.map id := List.map_congr_left (fun s _ => rfl)
      _ = stms := List.map_id stms
  have hperm := sortLoopFuel_perm ((buildDependencies stms).length + 1)
    (buildDependencies stms) [] (Nat.lt_succ_self _)
  have hstms_nodup : stms.Nodup := List.Nodup.of_map _ h
  cases hdet : (sortLoop (buildDependencies stms) []).2 with
  | false =>
    have hp := hperm.1 (by simpa [sortLoop] using hdet)
    have hout : sortRef stms
        = (sortLoop (buildDependencies stms) []).1 := by
      simp [sortRef, hdet]
    rw [hout]
    simpa [sortLoop, hstm_eq] using hp
  | true =>
    have hsub : ((sortLoop (buildDependencies stms) []).1).Subperm stms := by
      have := hperm.2
      simpa [sortLoop, hstm_eq] using this
    have hprenodup := subperm_nodup hsub hstms_nodup
    have hpresub := hsub.subset
    have hout : sortRef stms
        = (sortLoop (buildDependencies stms) []).1
          ++ stms.filter (fun s => ¬ s ∈ (sortLoop (buildDependencies stms) []).1) := by
      simp [sortRef, hdet]
    rw [hout]
    have h1 : (stms.filter
        (fun s => s ∈ (sortLoop (buildDependencies stms) []).1)).Perm
          (sortLoop (buildDependencies stms) []).1 := by
      apply (List.perm_ext_iff_of_nodup (hstms_nodup.filter _) hprenodup).mpr
      intro a
      constructor
      · intro ha
        exact of_decide_eq_true (List.mem_filter.mp ha).2
      · intro ha
        exact List.mem_filter.mpr ⟨hpresub ha, by simpa using ha⟩
    have h2 : (stms.filter (fun s => s ∈ (sortLoop (buildDependencies stms) []).1)
        ++ stms.filter (fun s => ¬ s ∈ (sortLoop (buildDependencies stms) []).1)).Perm
          stms := by
      have := List.filter_append_perm
        (fun s => decide (s ∈ (sortLoop (buildDependencies stms) []).1)) stms
      simpa [decide_not] using this
    exact (h1.symm.append_right _).trans h2



theorem matchIdxs_nil_of_not_mem (n : String) :
    ∀ ds : List String, n ∉ ds → matchIdxs n ds = [] := by
  intro ds
  induction ds with
  | nil => intro _; rfl
  | cons d ds ih =>
    intro h
    rw [List.mem_cons] at h
    push_neg at h
    unfold matchIdxs
    rw [if_neg (fun hc => h.1 hc.symm), ih h.2]
    rfl

theorem removeIdxs_shift (d : String) :
    ∀ (is : List Nat) (ds : List String),
      removeIdxs (d :: ds) (is.map (· + 1)) = (removeIdxs ds is).map (d :: ·) := by
  intro is
  induction is with
  | nil => intro ds; rfl
  | cons i is ih =>
    intro ds
    simp only [List.map_cons, removeIdxs, List.length_cons]
    by_cases hi : i < ds.length
    · rw [if_pos (by omega), if_pos hi, List.eraseIdx_cons_succ]
      exact ih (ds.eraseIdx i)
    · rw [if_neg (by omega), if_neg hi]
      rfl

theorem purgeOnceR_of_nodup (n : String) :
    ∀ ds : List String, ds.Nodup →
      purgeOnceR n ds = some (ds.filter (fun d => ¬ d = n)) := by
  intro ds
  induction ds with
  | nil => intro _; rfl
  | cons d ds ih =>
    intro h
    rcases List.nodup_cons.mp h with ⟨hd, hds⟩
    unfold purgeOnceR matchIdxs
    by_cases hdn : d = n
    · rw [if_pos hdn]
      subst hdn
      rw [matchIdxs_nil_of_not_mem d ds hd]
      simp only [List.map_nil, removeIdxs, List.length_cons]
      rw [if_pos (by omega)]
      simp only [List.eraseIdx_cons_zero, removeIdxs]
      have hfds : ds.filter (fun a => !decide (a = d)) = ds := by
        rw [List.filter_eq_self]
        intro a ha
        simp only [Bool.not_eq_true', decide_eq_false_iff_not]
        intro hc
        exact hd (hc ▸ ha)
      simp [List.filter_cons, hfds]
    · rw [if_neg hdn, removeIdxs_shift]
      unfold purgeOnceR at ih
      rw [ih hds]
      simp [List.filter_cons, hdn]

theorem purgeEntryR_of_nodup :
    ∀ (names : List String) (ds : List String), ds.Nodup →
      purgeEntryR names ds = some (ds.filter (fun d => d ∉ names)) := by
  intro names
  induction names with
  | nil =>
    intro ds _
    unfold purgeEntryR
    rw [List.foldlM_nil]
    have hfds : ds.filter (fun d => d ∉ ([] : List String)) = ds := by
      rw [List.filter_eq_self]
      intro a _
      simp
    rw [hfds]
    rfl
  | cons n rest ih =>
    intro ds h
    unfold purgeEntryR at *
    rw [List.foldlM_cons]
    show (purgeOnceR n ds).bind _ = _
    rw [purgeOnceR_of_nodup n ds h]
    rw [Option.some_bind]
    rw [ih _ (h.filter _), List.filter_filter]
    congr 1
    apply List.filter_congr
    intro d _
    by_cases h1 : d = n <;> by_cases h2 : d ∈ rest <;> simp [h1, h2]

theorem mapM_option_some {α β : Type} (f : α → Option β) (g : α → β) :
    ∀ l : List α, (∀ x ∈ l, f x = some (g x)) → l.mapM f = some (l.map g) := by
  intro l
  induction l with
  | nil => intro _; rfl
  | cons x xs ih =>
    intro h
    rw [List.mapM_cons, h x (List.mem_cons_self x xs), ih (fun y hy => h y (List.mem_cons_of_mem x hy))]
    rfl

theorem sortLoopFuelR_eq_of_nodup :
    ∀ (fuel : Nat) (entries : List SortEntry) (res : List Statement),
      (∀ e ∈ entries, e.deps.Nodup) →
      sortLoopFuelR fuel entries res = some (sortLoopFuel fuel entries res) := by
  intro fuel
  induction fuel with
  | zero => intro entries res _; rfl
  | succ fuel ih =>
    intro entries res hnd
    by_cases hentries : entries = []
    · subst hentries
      rfl
    · by_cases hleafs : entries.filter (fun e => e.deps = []) = []
      · simp [sortLoopFuelR, sortLoopFuel, hentries, hleafs]
      · have hmapM : (entries.filter (fun e => ¬ e.deps = [])).mapM
            (fun e => (purgeEntryR ((entries.filter (fun e => e.deps = [])).map (·.name))
                e.deps).map
              (fun ds => SortEntry.mk e.name e.stm ds))
            = some ((entries.filter (fun e => ¬ e.deps = [])).map
                (purgeEntry ((entries.filter (fun e => e.deps = [])).map (·.name)))) := by
          apply mapM_option_some
          intro e he
          rw [purgeEntryR_of_nodup _ _ (hnd e (List.mem_filter.mp he).1)]
          rfl
        have hnd2 : ∀ e2 ∈ (entries.filter (fun e => ¬ e.deps = [])).map
            (purgeEntry ((entries.filter (fun e => e.deps = [])).map (·.name))),
            e2.deps.Nodup := by
          intro e2 he2
          rcases List.mem_map.mp he2 with ⟨e, hemem, he2eq⟩
          subst he2eq
          simp only [purgeEntry]
          exact (hnd e (List.mem_filter.mp hemem).1).filter _
        have hrec := ih ((entries.filter (fun e => ¬ e.deps = [])).map
            (purgeEntry ((entries.filter (fun e => e.deps = [])).map (·.name))))
          (res ++ (entries.filter (fun e => e.deps = [])).map (·.stm)) hnd2
        simp only [sortLoopFuelR, sortLoopFuel, if_neg hentries, if_neg hleafs]
        rw [hmapM]
        exact hrec

/-- On duplicate-free dependency vectors the shipped sorter agrees with the
reference sorter (and in particular never panics). -/
theorem sort_eq_sortRef_of_nodup (stms : List Statement) (h : noDupDeps stms) :
    sort_statement_dependencies stms = some (sortRef stms) := by
  have hnd : ∀ e ∈ buildDependencies stms, e.deps.Nodup := by
    intro e he
    rcases buildDependencies_mem stms e he with ⟨s, hs, rfl⟩
    exact h s hs
  unfold sort_statement_dependencies sortRef sortLoopR sortLoop
  rw [sortLoopFuelR_eq_of_nodup _ _ _ hnd]
  rfl

/-- C1 counterexample: the acyclic module `w = X; type X = A T | B T | C U;
type T = CT; type U = CU` is sorted to `[T, U, w, X]` — the definition `w`,
which references `X`, comes *before* `X`.  `X`'s dependency vector is
`["T","T","U"]`; purging the leaf `"T"` removes stale indexes 0 and 1,
which deletes `"U"` instead of the second `"T"`, so `X` is never released
and the cycle fallback fires on an acyclic input. -/
theorem sort_statement_dependencies_not_topological :
    ¬ hasCycle [cstmW, cstmX, cstmT, cstmU]
    ∧ localStmDeps [cstmW, cstmX, cstmT, cstmU] cstmX = ["T", "T", "U"]
    ∧ sort_statement_dependencies [cstmW, cstmX, cstmT, cstmU]
        = some [cstmT, cstmU, cstmW, cstmX]
    ∧ ¬ topoSorted [cstmW, cstmX, cstmT, cstmU] [cstmT, cstmU, cstmW, cstmX] :=
  ⟨by decide, by decide, by decide, by decide⟩

/-- C1 (amended): provided additionally that no statement's module-local
dependency vector contains a duplicate name, an input with no dependency
cycle is sorted (without panicking) into a topologically sorted sequence:
a statement whose name another statement references as a local free name
appears strictly earlier. -/
theorem sort_statement_dependencies_topological (stms : List Statement)
    (hnd : noDupDeps stms) (h : ¬ hasCycle stms) :
    ∃ out, sort_statement_dependencies stms = some out ∧ topoSorted stms out :=
  ⟨sortRef stms, sort_eq_sortRef_of_nodup stms hnd, sortRef_topological stms h⟩

/-- C1 witness: the topological guarantee at the repository's own acyclic
test input (`y = x + 1; x = 0; z = y`). -/
theorem sort_statement_dependencies_topological_witness :
    noDupDeps [stmtY, stmtX, stmtZ]
    ∧ ¬ hasCycle [stmtY, stmtX, stmtZ]
    ∧ ∃ out, sort_statement_dependencies [stmtY, stmtX, stmtZ] = some out
        ∧ topoSorted [stmtY, stmtX, stmtZ] out :=
  ⟨by decide, by decide,
    sort_statement_dependencies_topological [stmtY, stmtX, stmtZ] (by decide) (by decide)⟩

/-- C3 counterexample: the module `a = b; b = a; type T = CT;
type X = A T | B T` contains a dependency cycle (`a`, `b`), yet
`sort_statement_dependencies` returns nothing at all: purging the leaf
`"T"` from `X`'s duplicated dependency vector `["T","T"]` calls
`Vec::remove(1)` on a one-element vector and panics, instead of returning
the ordered prefix plus the remaining statements. -/
theorem sort_statement_dependencies_cycle_panics :
    hasCycle [stmtA, stmtB, cstmT, cstmX2]
    ∧ sort_statement_dependencies [stmtA, stmtB, cstmT, cstmX2] = none :=
  ⟨by decide, by decide⟩

/-- C3 (amended): provided additionally that no statement's module-local
dependency vector contains a duplicate name, an input with a dependency
cycle yields (without panicking) the dependency-ordered prefix followed by
all remaining statements in their original source order, dropping none. -/
theorem sort_statement_dependencies_cycle_order (stms : List Statement)
    (hnd : noDupDeps stms) (h : hasCycle stms) :
    ∃ out pre, sort_statement_dependencies stms = some out
      ∧ out = pre ++ stms.filter (fun s => ¬ s ∈ pre)
      ∧ topoSorted stms pre
      ∧ ∀ s ∈ stms, s ∈ out := by
  rcases sortRef_cycle_order stms h with ⟨pre, heq, htopo, hall⟩
  exact ⟨sortRef stms, pre, sort_eq_sortRef_of_nodup stms hnd, heq, htopo, hall⟩

/-- C3 witness: the cycle guarantee at a concrete two-statement cycle. -/
theorem sort_statement_dependencies_cycle_order_witness :
    noDupDeps [stmtA, stmtB]
    ∧ hasCycle [stmtA, stmtB]
    ∧ ∃ out pre, sort_statement_dependencies [stmtA, stmtB] = some out
        ∧ out = pre ++ [stmtA, stmtB].filter (fun s => ¬ s ∈ pre)
        ∧ topoSorted [stmtA, stmtB] pre
        ∧ ∀ s ∈ [stmtA, stmtB], s ∈ out :=
  ⟨by decide, by decide,
    sort_statement_dependencies_cycle_order [stmtA, stmtB] (by decide) (by decide)⟩

/-- C10 counterexample: the module `a = b; b = a; type T = CT;
type X = A T | B T` has pairwise distinct statement names, yet the sorter
returns no list at all (the stale-index purge panics on `X`'s duplicated
dependency vector), so its output is not a permutation of the input. -/
theorem sort_statement_dependencies_not_permutation :
    ([stmtA, stmtB, cstmT, cstmX2].map get_stm_name).Nodup
    ∧ sort_statement_dependencies [stmtA, stmtB, cstmT, cstmX2] = none :=
  ⟨by decide, by decide⟩

/-- C10 (amended): provided additionally that no statement's module-local
dependency vector contains a duplicate name, an input with pairwise
distinct statement names is sorted (without panicking) into a permutation
of the input — nothing dropped or duplicated, with or without a detected
cycle. -/
theorem sort_statement_dependencies_permutation (stms : List Statement)
    (hnd : noDupDeps stms) (h : (stms.map get_stm_name).Nodup) :
    ∃ out, sort_statement_dependencies stms = some out ∧ out.Perm stms :=
  ⟨sortRef stms, sort_eq_sortRef_of_nodup stms hnd, sortRef_permutation stms h⟩

/-- C10 witness: the permutation guarantee at the repository's own acyclic
test input (distinct names `y`, `x`, `z`). -/
theorem sort_statement_dependencies_permutation_witness :
    noDupDeps [stmtY, stmtX, stmtZ]
    ∧ ([stmtY, stmtX, stmtZ].map get_stm_name).Nodup
    ∧ ∃ out, sort_statement_dependencies [stmtY, stmtX, stmtZ] = some out
        ∧ out.Perm [stmtY, stmtX, stmtZ] :=
  ⟨by decide, by decide,
    sort_statement_dependencies_permutation [stmtY, stmtX, stmtZ] (by decide) (by decide)⟩
